import Mathlib

/-!
Verification of `src/software/librender/SliceArray.h` (namespace `librender`).

The C++ template `SliceArray<T, BUCKET_SIZE>` is shallowly embedded as follows:

* A `Bucket` is a record with `next`/`prev` pointers and a fixed array of
  `BUCKET_SIZE` items.  Pointers are modelled as `Option Nat`: indices into an
  explicit allocation heap (`List (Bucket T)`), with `none` for `nullptr`.
  The allocator (`new (*fAllocator) Bucket`) appends a default-constructed
  bucket at the end of the heap and returns its address; memory is never
  released (the real `SliceAllocator` only bulk-reclaims, outside this class).
* The container state carries the heap together with the data members
  `fFirstBucket`, `fLastBucket`, `fNextBucketIndex`, the allocator reference
  (modelled as a `Bool` saying whether `setAllocator` has been called) and the
  spin lock `fLock`.
* `fNextBucketIndex` is a C++ `int` that is only ever set to `0`, incremented
  while `< BUCKET_SIZE`, or compared; it is modelled as a `Nat`.  The iterator
  index is decremented and compared against `< 0` (`operator--`), so it is
  modelled as an `Int`.
* Fallible steps (null-pointer dereference, out-of-range indexing, spinning
  on a held lock, exhausted retry fuel) return `none`; the C++ original has
  undefined behaviour or diverges there.
* Loops (`append`'s retry loop, `sort`'s two loops, iteration) are embedded
  with explicit fuel; theorems prove the fuel suffices on well-formed states.
-/

namespace Librender

/-- One chunk of storage: `struct Bucket { Bucket *next; Bucket *prev; T items[BUCKET_SIZE]; }`.
`next` and `prev` are heap addresses (`none` = `nullptr`); `items` is the
element storage, always of length `BUCKET_SIZE` for allocated buckets. -/
structure Bucket (T : Type) where
  next : Option Nat
  prev : Option Nat
  items : List T
deriving DecidableEq

instance {T : Type} [Inhabited T] : Inhabited (Bucket T) :=
  ⟨⟨none, none, []⟩⟩

/-- The state of a `SliceArray<T, BUCKET_SIZE>` object together with the
allocation heap backing it. -/
structure SliceArray (T : Type) where
  heap : List (Bucket T)
  fFirstBucket : Option Nat
  fLastBucket : Option Nat
  fNextBucketIndex : Nat
  fAllocator : Bool
  fLock : Bool
deriving DecidableEq

variable {T : Type} [Inhabited T]

/-- A freshly constructed `SliceArray()`: all members default-initialized. -/
def emptySA : SliceArray T :=
  { heap := [], fFirstBucket := none, fLastBucket := none,
    fNextBucketIndex := 0, fAllocator := false, fLock := false }

/-- `setAllocator(SliceAllocator *allocator)`. -/
def setAllocator (s : SliceArray T) : SliceArray T :=
  { s with fAllocator := true }

/-- The item array of the bucket at heap address `a`. -/
def itemsOf (h : List (Bucket T)) (a : Nat) : List T :=
  (h.getD a default).items

/-- Follow a bucket pointer and read its `next` field (`nullptr` reads give `none`). -/
def bucketNext (h : List (Bucket T)) : Option Nat → Option Nat
  | none => none
  | some a => (h.getD a default).next

/-- Follow a bucket pointer and read its `prev` field (`nullptr` reads give `none`). -/
def bucketPrev (h : List (Bucket T)) : Option Nat → Option Nat
  | none => none
  | some a => (h.getD a default).prev

variable (B : Nat)

/-- `allocateBucket()`, run in isolation (no other thread interleaved).
Returns `none` if the lock is already held (the caller would spin forever),
if the allocator was never set (`new (*fAllocator)` dereferences null), or if
`fLastBucket` dangles.  Otherwise it performs the C++ body: acquire the lock,
re-check the full/absent condition, allocate and link a new bucket (or make
the initial bucket), set `fNextBucketIndex = 0` last, release the lock. -/
def allocateBucketRun (s : SliceArray T) : Option (SliceArray T) :=
  if s.fLock then none
  else
    let s1 : SliceArray T := { s with fLock := true }
    if s1.fNextBucketIndex = B ∨ s1.fLastBucket = none then
      if s1.fAllocator = false then none
      else
        match s1.fLastBucket with
        | some lb =>
          if lb < s1.heap.length then
            let addr := s1.heap.length
            let nb : Bucket T := ⟨none, some lb, List.replicate B default⟩
            let h1 := s1.heap ++ [nb]
            let h2 := h1.set lb { h1.getD lb default with next := some addr }
            some { s1 with heap := h2, fLastBucket := some addr,
                           fNextBucketIndex := 0, fLock := false }
          else none
        | none =>
          let addr := s1.heap.length
          let nb : Bucket T := ⟨none, none, List.replicate B default⟩
          some { s1 with heap := s1.heap ++ [nb],
                         fFirstBucket := some addr, fLastBucket := some addr,
                         fNextBucketIndex := 0, fLock := false }
    else some { s1 with fLock := false }

/-- `__sync_bool_compare_and_swap(&fNextBucketIndex, oldv, newv)`:
returns the success flag and the possibly updated state. -/
def casNextBucketIndex (s : SliceArray T) (oldv newv : Nat) : Bool × SliceArray T :=
  if s.fNextBucketIndex = oldv then (true, { s with fNextBucketIndex := newv })
  else (false, s)

/-- `bucket->items[index] = v`: the slot write at the end of `append`.
Fails on a null or dangling bucket pointer or an out-of-range index. -/
def writeSlot (s : SliceArray T) (bucket : Option Nat) (index : Nat) (v : T) :
    Option (SliceArray T) :=
  match bucket with
  | none => none
  | some a =>
    match s.heap.get? a with
    | none => none
    | some b =>
      if index < b.items.length then
        some { s with heap := s.heap.set a { b with items := b.items.set index v } }
      else none

/-- The retry loop of `append`, with explicit fuel.  Each iteration reads
`fNextBucketIndex` then `fLastBucket` (in that order, as the source insists),
grows when full/absent, otherwise CASes the index and writes the slot.
Running single-threaded the CAS always succeeds, so fuel 2 is enough. -/
def appendLoop (v : T) : Nat → SliceArray T → Option (SliceArray T)
  | 0, _ => none
  | fuel + 1, s =>
    let index := s.fNextBucketIndex
    let bucket := s.fLastBucket
    if index = B ∨ bucket = none then
      match allocateBucketRun B s with
      | none => none
      | some s1 => appendLoop v fuel s1
    else
      match casNextBucketIndex s index (index + 1) with
      | (true, s1) => writeSlot s1 bucket index v
      | (false, s1) => appendLoop v fuel s1

/-- `append(const T &copyFrom)`, run with no interleaved thread. -/
def append (s : SliceArray T) (v : T) : Option (SliceArray T) :=
  appendLoop B v 2 s

/-- `append` each element of `vs` in order (single-threaded use). -/
def appendAll (s : SliceArray T) : List T → Option (SliceArray T)
  | [] => some s
  | v :: vs =>
    match append B s v with
    | none => none
    | some s1 => appendAll s1 vs

/-- `reset()`: runs the bucket destructors (no observable effect on the value
model) and clears `fFirstBucket`, `fLastBucket`, `fNextBucketIndex`.  The heap
(allocator memory) is untouched: chunks are never released here. -/
def reset (s : SliceArray T) : SliceArray T :=
  { s with fFirstBucket := none, fLastBucket := none, fNextBucketIndex := 0 }

/-- An iterator: `Bucket *fBucket; int fIndex;`. -/
structure SAIterator where
  fBucket : Option Nat
  fIndex : Int
deriving DecidableEq

/-- `begin()`: `iterator(fFirstBucket, 0)`. -/
def beginIt (s : SliceArray T) : SAIterator :=
  ⟨s.fFirstBucket, 0⟩

/-- `end()`: `iterator(fLastBucket, fNextBucketIndex)`. -/
def endIt (s : SliceArray T) : SAIterator :=
  ⟨s.fLastBucket, (s.fNextBucketIndex : Int)⟩

/-- `operator++`: increment the offset; move to the `next` bucket (offset 0)
only when the offset hits `BUCKET_SIZE` and `next` is non-null. -/
def incIt (h : List (Bucket T)) (it : SAIterator) : SAIterator :=
  let i := it.fIndex + 1
  if i = (B : Int) ∧ bucketNext h it.fBucket ≠ none then
    ⟨bucketNext h it.fBucket, 0⟩
  else
    ⟨it.fBucket, i⟩

/-- `operator--`: decrement the offset; on underflow move to the `prev`
bucket at offset `BUCKET_SIZE - 1`. -/
def decIt (h : List (Bucket T)) (it : SAIterator) : SAIterator :=
  let i := it.fIndex - 1
  if i < 0 then
    ⟨bucketPrev h it.fBucket, (B : Int) - 1⟩
  else
    ⟨it.fBucket, i⟩

/-- `operator*`: read `fBucket->items[fIndex]`.  The guarded embedding
returns `none` where the C++ would index a null bucket or out of range. -/
def derefIt (h : List (Bucket T)) (it : SAIterator) : Option T :=
  match it.fBucket with
  | none => none
  | some a =>
    if it.fIndex < 0 then none
    else
      match h.get? a with
      | none => none
      | some b => b.items.get? it.fIndex.toNat

/-- `*it = v`: write through an iterator (guarded like `derefIt`). -/
def writeIt (h : List (Bucket T)) (it : SAIterator) (v : T) :
    Option (List (Bucket T)) :=
  match it.fBucket with
  | none => none
  | some a =>
    if it.fIndex < 0 then none
    else
      match h.get? a with
      | none => none
      | some b =>
        if it.fIndex.toNat < b.items.length then
          some (h.set a { b with items := b.items.set it.fIndex.toNat v })
        else none

/-- The consumption-phase loop from the spec (testable property "Round-trip"):
walk from an iterator up to the captured `end()`, collecting `*it` at each
step and advancing with `operator++`. -/
def collectGo (h : List (Bucket T)) (e : SAIterator) :
    Nat → SAIterator → Option (List T)
  | 0, it => if it = e then some [] else none
  | fuel + 1, it =>
    if it = e then some []
    else
      match derefIt h it with
      | none => none
      | some v =>
        match collectGo h e fuel (incIt B h it) with
        | none => none
        | some vs => some (v :: vs)

/-- Collect the whole sequence `begin() .. end()`. -/
def collect (s : SliceArray T) : Option (List T) :=
  collectGo B s.heap (endIt s) (s.heap.length * B + 1) (beginIt s)

/-- The inner `while (j != begin() && *j.prev() > *j)` loop of `sort`:
swap `*j` with `*j.prev()` and step `--j`.  `gt` is the element type's
`operator>`.  The reads/writes happen in source order: `temp = *j`,
`*j = *j.prev()`, `*j.prev() = temp`. -/
def innerLoop (gt : T → T → Bool) (first : Option Nat) :
    Nat → List (Bucket T) → SAIterator → Option (List (Bucket T))
  | 0, _, _ => none
  | fuel + 1, h, j =>
    if j = ⟨first, 0⟩ then some h
    else
      match derefIt h (decIt B h j), derefIt h j with
      | some pv, some jv =>
        if gt pv jv then
          match writeIt h j pv with
          | none => none
          | some h1 =>
            match writeIt h1 (decIt B h1 j) jv with
            | none => none
            | some h2 => innerLoop gt first fuel h2 (decIt B h2 j)
        else some h
      | _, _ => none

/-- The outer `for (iterator i = begin().next(), e = end(); i != e; ++i)`
loop of `sort`. -/
def outerLoop (gt : T → T → Bool) (first : Option Nat) (e : SAIterator) :
    Nat → List (Bucket T) → SAIterator → Option (List (Bucket T))
  | 0, _, _ => none
  | fuel + 1, h, i =>
    if i = e then some h
    else
      match innerLoop B gt first (h.length * B + 1) h i with
      | none => none
      | some h1 => outerLoop gt first e fuel h1 (incIt B h1 i)

/-- `sort()`: early-return on an empty container, otherwise the iterator
insertion sort.  Only the heap (item storage) changes. -/
def sortRun (gt : T → T → Bool) (s : SliceArray T) : Option (SliceArray T) :=
  if s.fFirstBucket = none then some s
  else
    match outerLoop B gt s.fFirstBucket (endIt s) (s.heap.length * B + 1)
        s.heap (incIt B s.heap (beginIt s)) with
    | none => none
    | some h => some { s with heap := h }

/-- `static int compareElements(const void *t1, const void *t2)`:
`*t1 > *t2 ? 1 : -1`. -/
def compareElements {U : Type} [LinearOrder U] (t1 t2 : U) : Int :=
  if t1 > t2 then 1 else -1

/-- The element type's `operator>` for a linearly ordered type. -/
def gtOf {U : Type} [LinearOrder U] (a b : U) : Bool :=
  decide (b < a)

/-! ### A functional rendering of the iterator insertion sort on the flat list

`bubbleL pre a suf` is the inner loop seen through a zipper: `pre` is the
(reversed) part of the sequence before the moving element `a`, and `suf` the
part after it; while the previous element compares greater the two swap. -/

/-- Inner loop on the flattened sequence, as a zipper. -/
def bubbleL (gt : T → T → Bool) : List T → T → List T → List T
  | [], a, suf => a :: suf
  | p :: pre, a, suf =>
    if gt p a then bubbleL gt pre a (p :: suf)
    else List.reverseAux (p :: pre) (a :: suf)

/-- Outer loop on the flattened sequence: `pre` is the reversed sorted prefix. -/
def isortGo (gt : T → T → Bool) : List T → List T → List T
  | pre, [] => pre.reverse
  | pre, a :: rest => isortGo gt ((bubbleL gt pre a []).reverse) rest

/-- The whole insertion sort on the flattened sequence. -/
def isortL (gt : T → T → Bool) : List T → List T
  | [] => []
  | a :: rest => isortGo gt [a] rest

/-- Ascending order: no element strictly greater than its successor. -/
def NoDesc (gt : T → T → Bool) (l : List T) : Prop :=
  List.Chain' (fun a b => gt a b = false) l

/-- Two elements compare equal under the strict order `gt`:
neither is greater than the other. -/
def eqvb (gt : T → T → Bool) (c x : T) : Bool :=
  !gt x c && !gt c x

/-- Swap the adjacent elements at positions `k` and `k + 1`, in the write
order of the source (`*j = *j.prev(); *j.prev() = temp`). -/
def swapAdj (l : List T) (k : Nat) : List T :=
  (l.set (k + 1) (l.getD k default)).set k (l.getD (k + 1) default)

/-- Index-level rendering of the inner loop: bubble the element at position
`k` down while its predecessor compares greater. -/
def insStep (gt : T → T → Bool) : Nat → List T → List T
  | 0, l => l
  | k + 1, l =>
    if gt (l.getD k default) (l.getD (k + 1) default) then
      insStep gt k (swapAdj l k)
    else l

/-- Index-level rendering of the outer loop: run `insStep` at positions
`i, i+1, ...` for `steps` steps. -/
def isortIdxGo (gt : T → T → Bool) : Nat → Nat → List T → List T
  | 0, _, l => l
  | steps + 1, i, l => isortIdxGo gt steps (i + 1) (insStep gt i l)

/-! ### Well-formed states

`ChainOK h addrs` says `addrs` lists the heap addresses of a doubly linked
bucket chain; `Rep s addrs vs` says the container `s` stores exactly the
logical sequence `vs` in that chain — the shape of every state reachable by
single-threaded `append`s (and `reset`s) from a fresh container. -/

/-- The bucket chain `addrs` is well formed inside heap `h`. -/
def ChainOK (h : List (Bucket T)) (addrs : List Nat) : Prop :=
  (∀ a ∈ addrs, a < h.length) ∧
  List.Chain' (· < ·) addrs ∧
  List.Chain' (fun a b => (h.getD a default).next = some b) addrs ∧
  List.Chain' (fun a b => (h.getD b default).prev = some a) addrs ∧
  (addrs = [] ∨ (h.getD (addrs.getLastD 0) default).next = none) ∧
  (∀ a ∈ addrs, (itemsOf h a).length = B)

/-- A `Chain'` decision procedure by structural recursion (it evaluates by
kernel reduction, so `decide` can check concrete chain states). -/
def chainDec {α : Type} (R : α → α → Prop) [dr : DecidableRel R] :
    (l : List α) → Decidable (List.Chain' R l)
  | [] => isTrue List.chain'_nil
  | [a] => isTrue (List.chain'_singleton a)
  | a :: b :: l =>
    @decidable_of_iff _ _ List.chain'_cons.symm
      (@instDecidableAnd _ _ (dr a b) (chainDec R (b :: l)))

instance {α : Type} (R : α → α → Prop) [DecidableRel R] (l : List α) :
    Decidable (List.Chain' R l) :=
  chainDec R l

instance (h : List (Bucket T)) (addrs : List Nat) :
    Decidable (ChainOK B h addrs) :=
  inferInstanceAs (Decidable (_ ∧ _ ∧ _ ∧ _ ∧ _ ∧ _))

/-- Heap-level representation: the chain `addrs` stores the sequence `vs`,
with `r` slots reserved in the last bucket.  The concatenation of all chain
buckets' item arrays is `vs` followed by the `B - r` not-yet-reserved cells
of the last bucket. -/
def RepH [DecidableEq T] (h : List (Bucket T)) (addrs : List Nat) (r : Nat)
    (vs : List T) : Prop :=
  ChainOK B h addrs ∧
  ((addrs = [] ∧ vs = [] ∧ r = 0) ∨
   (addrs ≠ [] ∧ 1 ≤ r ∧ r ≤ B ∧
    ((addrs.map (itemsOf h)).flatten.take vs.length = vs) ∧
    (addrs.map (itemsOf h)).flatten.length = vs.length + (B - r)))

instance [DecidableEq T] (h : List (Bucket T)) (addrs : List Nat) (r : Nat)
    (vs : List T) : Decidable (RepH B h addrs r vs) :=
  inferInstanceAs (Decidable (_ ∧ _))

/-- Container-level representation: heap-level representation plus the data
members, with the allocator set and the growth lock free. -/
def Rep [DecidableEq T] (s : SliceArray T) (addrs : List Nat) (vs : List T) :
    Prop :=
  RepH B s.heap addrs s.fNextBucketIndex vs ∧
  s.fFirstBucket = addrs.head? ∧
  s.fLastBucket = addrs.getLast? ∧
  s.fAllocator = true ∧
  s.fLock = false

instance [DecidableEq T] (s : SliceArray T) (addrs : List Nat) (vs : List T) :
    Decidable (Rep B s addrs vs) :=
  inferInstanceAs (Decidable (_ ∧ _ ∧ _ ∧ _ ∧ _))

/-- The iterator at logical position `k` of a sequence of length `n` stored
in chain `addrs` with `r` slots reserved in the last bucket; position `n`
is the captured `end()`. -/
def posIt (addrs : List Nat) (r n k : Nat) : SAIterator :=
  if k < n then ⟨some (addrs.getD (k / B) 0), ((k % B : Nat) : Int)⟩
  else ⟨addrs.getLast?, (r : Int)⟩

/-- The structural invariant of claim C5: the slot index is in range and the
data members point at the head and tail of a well-formed chain. -/
def StructWF (s : SliceArray T) : Prop :=
  s.fNextBucketIndex ≤ B ∧
  ∃ addrs, ChainOK B s.heap addrs ∧
    s.fFirstBucket = addrs.head? ∧ s.fLastBucket = addrs.getLast?

/-- States reachable from a fresh container by any sequence of the public
operations (allocator setup, appends, growths, resets), each run without
interleaving. -/
inductive Reachable : SliceArray T → Prop
  | init : Reachable emptySA
  | setAlloc {s} : Reachable s → Reachable (setAllocator s)
  | app {s s' v} : Reachable s → append B s v = some s' → Reachable s'
  | grow {s s'} : Reachable s → allocateBucketRun B s = some s' → Reachable s'
  | reset {s} : Reachable s → Reachable (reset s)

/-! ### The concurrent append race (claim C3)

Three threads each append once to a `SliceArray<int, 1>`:
`t1` appends 10, `A` appends 30, `t2` appends 20.  Every step below is one
of the primitive actions of `append` in program order for its thread; the
schedule is sequentially consistent.  Thread `A` snapshots
`fNextBucketIndex = 0` and `fLastBucket = bucket 0` (in the source's read
order), then stalls; after bucket 0 fills and a growth resets the index to
0 for bucket 1, `A`'s compare-and-swap of `fNextBucketIndex` from 0 to 1
succeeds again (ABA) and `A` writes its value into the stale bucket 0 slot
that `t1` had already written. -/
def raceResult : Option (List Int) := do
  let s0 : SliceArray Int := setAllocator emptySA
  -- t1 append(10): reads index = 0, bucket = null, so it grows (bucket 0)
  let s1 ← allocateBucketRun 1 s0
  -- t1 retries its loop: reads index = 0, then bucket = some 0
  let i1 := s1.fNextBucketIndex
  let b1 := s1.fLastBucket
  -- thread A append(30): reads index = 0, then bucket = some 0, then stalls
  let iA := s1.fNextBucketIndex
  let bA := s1.fLastBucket
  -- t1: CAS index 0 to 1 succeeds; t1 writes its slot: bucket 0, index 0 := 10
  let r1 := casNextBucketIndex s1 i1 (i1 + 1)
  if !r1.1 then none else
  let s3 ← writeSlot r1.2 b1 i1 10
  -- t2 append(20): reads index = 1 = BUCKET_SIZE, so it grows
  -- (bucket 1 is linked and published, index reset to 0)
  let s4 ← allocateBucketRun 1 s3
  -- A wakes: CAS index 0 to 1 succeeds again (ABA)
  let rA := casNextBucketIndex s4 iA (iA + 1)
  if !rA.1 then none else
  -- A writes through its stale snapshot: bucket 0, index 0 := 30
  let s6 ← writeSlot rA.2 bA iA 30
  -- t2 retries: reads index = 1 = BUCKET_SIZE again, grows (bucket 2)
  let s7 ← allocateBucketRun 1 s6
  -- t2 retries: reads index = 0, bucket = some 2; CAS succeeds; writes 20
  let i2 := s7.fNextBucketIndex
  let b2 := s7.fLastBucket
  let r2 := casNextBucketIndex s7 i2 (i2 + 1)
  if !r2.1 then none else
  let s9 ← writeSlot r2.2 b2 i2 20
  -- consumption phase: collect the final sequence
  collect 1 s9

/-! ## Theorems -/

section ListSortLemmas

variable {gt : T → T → Bool}

theorem bubbleL_suffix (gt : T → T → Bool) (pre : List T) (a : T)
    (s₁ s₂ : List T) :
    bubbleL gt pre a (s₁ ++ s₂) = bubbleL gt pre a s₁ ++ s₂ := by
  induction pre generalizing s₁ with
  | nil => simp [bubbleL]
  | cons p pre ih =>
    simp only [bubbleL]
    by_cases h : gt p a
    · simp only [h, if_true]
      rw [← List.cons_append, ih]
    · simp [h, List.reverseAux_eq]

theorem bubbleL_perm (gt : T → T → Bool) (pre : List T) (a : T)
    (suf : List T) :
    (bubbleL gt pre a suf).Perm (pre.reverse ++ a :: suf) := by
  induction pre generalizing suf with
  | nil => simp [bubbleL]
  | cons p pre ih =>
    simp only [bubbleL, List.reverse_cons]
    cases hpa : gt p a with
    | true =>
      simp only [hpa, if_true]
      refine (ih (p :: suf)).trans ?_
      rw [List.append_assoc, List.singleton_append]
      exact List.Perm.append_left _ (List.Perm.swap p a suf)
    | false => simp [hpa, List.reverseAux_eq]

theorem bubbleL_length (gt : T → T → Bool) (pre : List T) (a : T)
    (suf : List T) :
    (bubbleL gt pre a suf).length = pre.length + 1 + suf.length := by
  have := (bubbleL_perm gt pre a suf).length_eq
  simp at this
  omega

theorem bubbleL_noDesc (hasym : ∀ x y, gt x y = true → gt y x = false)
    (pre : List T) (a : T) (suf : List T)
    (hchain : NoDesc gt (pre.reverse ++ suf))
    (hsuf : ∀ x ∈ suf, gt x a = true) :
    NoDesc gt (bubbleL gt pre a suf) := by
  induction pre generalizing suf with
  | nil =>
    simp only [bubbleL]
    cases suf with
    | nil => simp [NoDesc]
    | cons s rest =>
      rw [NoDesc, List.chain'_cons]
      refine ⟨hasym _ _ (hsuf s (by simp)), ?_⟩
      simpa [NoDesc] using hchain
  | cons p pre ih =>
    simp only [bubbleL]
    cases hpa : gt p a with
    | true =>
      simp only [hpa, if_true]
      refine ih (p :: suf) ?_ ?_
      · have heq : (p :: pre).reverse ++ suf = pre.reverse ++ p :: suf := by
          simp [List.reverse_cons, List.append_assoc]
        rwa [NoDesc, heq] at hchain
      · intro x hx
        rcases List.mem_cons.1 hx with rfl | hx
        · exact hpa
        · exact hsuf x hx
    | false =>
      rw [if_neg (by simp [hpa]), List.reverseAux_eq, List.reverse_cons]
      have hc : NoDesc gt ((pre.reverse ++ [p]) ++ suf) := by
        rwa [NoDesc, List.reverse_cons] at hchain
      rw [NoDesc, List.chain'_append] at hc ⊢
      refine ⟨hc.1, ?_, ?_⟩
      · cases suf with
        | nil => simp
        | cons s rest =>
          rw [List.chain'_cons]
          exact ⟨hasym _ _ (hsuf s (by simp)), hc.2.1⟩
      · intro x hx y hy
        rw [List.getLast?_concat] at hx
        simp only [List.head?_cons, Option.mem_def, Option.some.injEq] at hx hy
        subst hx; subst hy
        exact hpa

theorem filter_swap_adjacent (P : T → Bool) (x y : T)
    (hnot : ¬(P x = true ∧ P y = true)) (l s : List T) :
    (l ++ x :: y :: s).filter P = (l ++ y :: x :: s).filter P := by
  simp only [List.filter_append, List.filter_cons]
  rcases hPx : P x <;> rcases hPy : P y <;> simp_all

theorem bubbleL_filter
    (hneg : ∀ x y z, gt x y = false → gt y z = false → gt x z = false)
    (c : T) (pre : List T) (a : T) (suf : List T) :
    (bubbleL gt pre a suf).filter (eqvb gt c) =
      (pre.reverse ++ a :: suf).filter (eqvb gt c) := by
  induction pre generalizing suf with
  | nil => simp [bubbleL]
  | cons p pre ih =>
    simp only [bubbleL, List.reverse_cons]
    cases hpa : gt p a with
    | true =>
      simp only [hpa, if_true]
      rw [ih (p :: suf), List.append_assoc, List.singleton_append]
      exact filter_swap_adjacent (eqvb gt c) a p (by
        rintro ⟨ha, hp⟩
        simp only [eqvb, Bool.and_eq_true, Bool.not_eq_true'] at ha hp
        exact absurd (hneg p c a hp.1 ha.2) (by simp [hpa])) pre.reverse suf
    | false => simp [hpa, List.reverseAux_eq]

theorem isortGo_perm (gt : T → T → Bool) (rest : List T) (pre : List T) :
    (isortGo gt pre rest).Perm (pre.reverse ++ rest) := by
  induction rest generalizing pre with
  | nil => simp [isortGo]
  | cons a rest ih =>
    simp only [isortGo]
    refine (ih _).trans ?_
    rw [List.reverse_reverse]
    refine ((bubbleL_perm gt pre a []).append_right rest).trans ?_
    simp [List.append_assoc]

theorem isortGo_noDesc {gt : T → T → Bool}
    (hasym : ∀ x y, gt x y = true → gt y x = false)
    (rest : List T) (pre : List T) (hpre : NoDesc gt pre.reverse) :
    NoDesc gt (isortGo gt pre rest) := by
  induction rest generalizing pre with
  | nil => exact hpre
  | cons a rest ih =>
    simp only [isortGo]
    refine ih _ ?_
    rw [List.reverse_reverse]
    exact bubbleL_noDesc hasym pre a [] (by simpa using hpre) (by simp)

theorem isortGo_filter {gt : T → T → Bool}
    (hneg : ∀ x y z, gt x y = false → gt y z = false → gt x z = false)
    (c : T) (rest : List T) (pre : List T) :
    (isortGo gt pre rest).filter (eqvb gt c) =
      (pre.reverse ++ rest).filter (eqvb gt c) := by
  induction rest generalizing pre with
  | nil => simp [isortGo]
  | cons a rest ih =>
    simp only [isortGo]
    rw [ih _, List.reverse_reverse, List.filter_append, bubbleL_filter hneg,
      ← List.filter_append, List.append_assoc, List.singleton_append]

theorem isortL_perm (gt : T → T → Bool) (l : List T) :
    (isortL gt l).Perm l := by
  cases l with
  | nil => simp [isortL]
  | cons a rest => simpa using isortGo_perm gt rest [a]

theorem isortL_noDesc {gt : T → T → Bool}
    (hasym : ∀ x y, gt x y = true → gt y x = false) (l : List T) :
    NoDesc gt (isortL gt l) := by
  cases l with
  | nil => simp [isortL, NoDesc]
  | cons a rest => exact isortGo_noDesc hasym rest [a] (by simp [NoDesc])

theorem isortL_filter {gt : T → T → Bool}
    (hneg : ∀ x y z, gt x y = false → gt y z = false → gt x z = false)
    (c : T) (l : List T) :
    (isortL gt l).filter (eqvb gt c) = l.filter (eqvb gt c) := by
  cases l with
  | nil => rfl
  | cons a rest => simpa using isortGo_filter hneg c rest [a]

theorem isortL_length (gt : T → T → Bool) (l : List T) :
    (isortL gt l).length = l.length :=
  (isortL_perm gt l).length_eq

theorem take_set_of_le (l : List T) (v : T) {k m : Nat} (h : k ≤ m) :
    (l.set m v).take k = l.take k := by
  rw [List.set_take, List.set_eq_of_length_le]
  simp only [List.length_take]
  omega

theorem drop_set_of_lt (l : List T) (v : T) {k m : Nat} (h : m < k) :
    (l.set m v).drop k = l.drop k := by
  rw [List.drop_set, if_pos h]

theorem drop_set_self (l : List T) (v : T) {k : Nat} (h : k < l.length) :
    (l.set k v).drop k = v :: l.drop (k + 1) := by
  rw [List.drop_set, if_neg (by omega), Nat.sub_self,
    List.drop_eq_getElem_cons h, List.set_cons_zero]

theorem getD_set_self (l : List T) (v d : T) {k : Nat} (h : k < l.length) :
    (l.set k v).getD k d = v := by
  rw [List.getD_eq_getElem?_getD, List.getElem?_set_self h]
  rfl

theorem getD_set_ne (l : List T) (v d : T) {k m : Nat} (h : m ≠ k) :
    (l.set m v).getD k d = l.getD k d := by
  rw [List.getD_eq_getElem?_getD, List.getElem?_set_ne h,
    ← List.getD_eq_getElem?_getD]

theorem getD_take_of_lt (l : List T) (d : T) {k n : Nat} (h : k < n) :
    (l.take n).getD k d = l.getD k d := by
  rw [List.getD_eq_getElem?_getD, List.getElem?_take_of_lt h,
    ← List.getD_eq_getElem?_getD]

theorem drop_eq_getD_cons (l : List T) (d : T) {k : Nat} (h : k < l.length) :
    l.drop k = l.getD k d :: l.drop (k + 1) := by
  rw [List.drop_eq_getElem_cons h, List.getD_eq_getElem?_getD,
    List.getElem?_eq_getElem h]
  rfl

theorem swapAdj_length (l : List T) (k : Nat) :
    (swapAdj l k).length = l.length := by
  simp [swapAdj]

theorem insStep_length (gt : T → T → Bool) (j : Nat) (l : List T) :
    (insStep gt j l).length = l.length := by
  induction j generalizing l with
  | zero => rfl
  | succ k ih =>
    simp only [insStep]
    split
    · rw [ih, swapAdj_length]
    · rfl

theorem insStep_eq_bubbleL (gt : T → T → Bool) (j : Nat) (l : List T)
    (hj : j < l.length) :
    insStep gt j l =
      bubbleL gt (l.take j).reverse (l.getD j default) (l.drop (j + 1)) := by
  induction j generalizing l with
  | zero =>
    cases l with
    | nil => simp at hj
    | cons a rest => simp [insStep, bubbleL]
  | succ k ih =>
    have hk : k < l.length := by omega
    have htake : (l.take (k + 1)).reverse =
        l.getD k default :: (l.take k).reverse := by
      rw [List.take_succ, List.getElem?_eq_getElem hk]
      simp [List.getD_eq_getElem?_getD, List.getElem?_eq_getElem hk]
    simp only [insStep, htake, bubbleL]
    cases hcmp : gt (l.getD k default) (l.getD (k + 1) default) with
    | true =>
      simp only [hcmp, if_true]
      rw [ih (swapAdj l k) (by rw [swapAdj_length]; omega)]
      have h1 : (swapAdj l k).take k = l.take k := by
        rw [swapAdj, take_set_of_le _ _ (Nat.le_refl k),
          take_set_of_le _ _ (Nat.le_succ k)]
      have h2 : (swapAdj l k).getD k default = l.getD (k + 1) default := by
        rw [swapAdj, getD_set_self]
        rw [List.length_set]; omega
      have h3 : (swapAdj l k).drop (k + 1) =
          l.getD k default :: l.drop (k + 2) := by
        rw [swapAdj, drop_set_of_lt _ _ (Nat.lt_succ_self k),
          drop_set_self _ _ hj]
      rw [h1, h2, h3]
    | false =>
      rw [if_neg (by simp [hcmp]), if_neg (by simp [hcmp]),
        List.reverseAux_eq, List.reverse_cons, List.reverse_reverse,
        ← drop_eq_getD_cons l default hj]
      have h4 : l.take k ++ [l.getD k default] = l.take (k + 1) := by
        rw [List.take_succ, List.getElem?_eq_getElem hk]
        simp [List.getD_eq_getElem?_getD, List.getElem?_eq_getElem hk]
      rw [h4, List.take_append_drop]

theorem isortIdxGo_eq_isortGo (gt : T → T → Bool) (steps : Nat) :
    ∀ (i : Nat) (l : List T), 1 ≤ i → i + steps = l.length →
      isortIdxGo gt steps i l = isortGo gt (l.take i).reverse (l.drop i) := by
  induction steps with
  | zero =>
    intro i l _ hlen
    have : i = l.length := by omega
    subst this
    simp [isortIdxGo, isortGo]
  | succ steps ih =>
    intro i l hi hlen
    have hilen : i < l.length := by omega
    simp only [isortIdxGo]
    rw [ih (i + 1) (insStep gt i l) (by omega)
      (by rw [insStep_length]; omega)]
    have hsplit : insStep gt i l =
        bubbleL gt (l.take i).reverse (l.getD i default) [] ++ l.drop (i + 1) := by
      rw [insStep_eq_bubbleL gt i l hilen,
        ← bubbleL_suffix gt _ _ [] (l.drop (i + 1))]
      rfl
    have hblen : (bubbleL gt (l.take i).reverse (l.getD i default) []).length
        = i + 1 := by
      rw [bubbleL_length]
      simp only [List.length_reverse, List.length_take, List.length_nil]
      omega
    have htake : (insStep gt i l).take (i + 1) =
        bubbleL gt (l.take i).reverse (l.getD i default) [] := by
      rw [hsplit, ← hblen, List.take_left]
    have hdrop : (insStep gt i l).drop (i + 1) = l.drop (i + 1) := by
      rw [hsplit, ← hblen, List.drop_left]
    rw [htake, hdrop, drop_eq_getD_cons l default hilen, isortGo]

theorem isortIdxGo_eq_isortL (gt : T → T → Bool) (a : T) (rest : List T) :
    isortIdxGo gt rest.length 1 (a :: rest) = isortL gt (a :: rest) := by
  rw [isortIdxGo_eq_isortGo gt rest.length 1 (a :: rest) (Nat.le_refl 1)
    (by simp; omega)]
  simp [isortL]

end ListSortLemmas

section RepresentationLemmas

theorem div_mod_pair {B : Nat} (hB : 0 < B) (q r : Nat) (hr : r < B) :
    (B * q + r) / B = q ∧ (B * q + r) % B = r := by
  constructor
  · rw [Nat.mul_add_div hB, Nat.div_eq_of_lt hr]
    omega
  · rw [Nat.mul_add_mod, Nat.mod_eq_of_lt hr]


theorem flatten_length_uniform {B : Nat} (L : List (List T))
    (hL : ∀ l ∈ L, l.length = B) : L.flatten.length = L.length * B := by
  induction L with
  | nil => simp
  | cons l L ih =>
    simp only [List.flatten_cons, List.length_append, List.length_cons]
    rw [hL l (by simp), ih (fun x hx => hL x (by simp [hx]))]
    ring

theorem flatten_getD {B : Nat} (L : List (List T)) (d : T)
    (hL : ∀ l ∈ L, l.length = B) {i q : Nat} (hi : i < L.length)
    (hq : q < B) :
    L.flatten.getD (B * i + q) d = (L.getD i []).getD q d := by
  induction L generalizing i with
  | nil => simp at hi
  | cons l L ih =>
    have hl : l.length = B := hL l (by simp)
    cases i with
    | zero =>
      simp only [List.flatten_cons, Nat.mul_zero, Nat.zero_add,
        List.getD_cons_zero]
      rw [List.getD_eq_getElem?_getD,
        List.getElem?_append_left (by rw [hl]; omega),
        ← List.getD_eq_getElem?_getD]
    | succ i =>
      simp only [List.flatten_cons]
      have hmul : B * (i + 1) = B * i + B := Nat.mul_succ B i
      rw [List.getD_eq_getElem?_getD, List.getElem?_append_right
        (by rw [hl]; omega), hl]
      have harith : B * (i + 1) + q - B = B * i + q := by omega
      rw [harith, ← List.getD_eq_getElem?_getD,
        ih (fun x hx => hL x (by simp [hx])) (by simpa using hi)]
      simp

theorem flatten_set {B : Nat} (L : List (List T)) (v : T)
    (hL : ∀ l ∈ L, l.length = B) {i q : Nat} (hi : i < L.length)
    (hq : q < B) :
    (L.set i ((L.getD i []).set q v)).flatten = L.flatten.set (B * i + q) v := by
  induction L generalizing i with
  | nil => simp at hi
  | cons l L ih =>
    have hl : l.length = B := hL l (by simp)
    cases i with
    | zero =>
      simp only [List.getD_cons_zero, List.set_cons_zero, List.flatten_cons,
        Nat.mul_zero, Nat.zero_add]
      rw [List.set_append, if_pos (by omega)]
    | succ i =>
      simp only [List.set_cons_succ, List.flatten_cons]
      have hmul : B * (i + 1) = B * i + B := Nat.mul_succ B i
      rw [List.set_append, if_neg (by omega), hl]
      have harith : B * (i + 1) + q - B = B * i + q := by omega
      rw [harith, List.getD_cons_succ,
        ih (fun x hx => hL x (by simp [hx])) (by simpa using hi)]

theorem chain_addr_getD_mem (addrs : List Nat) {i : Nat}
    (hi : i < addrs.length) : addrs.getD i 0 ∈ addrs := by
  rw [List.getD_eq_getElem _ _ hi]
  exact List.getElem_mem hi

theorem chain_nodup {addrs : List Nat}
    (hc : List.Chain' (· < ·) addrs) : addrs.Nodup := by
  have := List.chain'_iff_pairwise.1 hc
  exact this.imp (fun h => Nat.ne_of_lt h)

theorem chain_getD_inj {addrs : List Nat}
    (hc : List.Chain' (· < ·) addrs) {i j : Nat} (hi : i < addrs.length)
    (hj : j < addrs.length) (heq : addrs.getD i 0 = addrs.getD j 0) :
    i = j := by
  rw [List.getD_eq_getElem _ _ hi, List.getD_eq_getElem _ _ hj] at heq
  exact ((chain_nodup hc).getElem_inj_iff).1 heq

theorem chain_length_le {addrs : List Nat} {L : Nat}
    (hc : List.Chain' (· < ·) addrs) (hlt : ∀ a ∈ addrs, a < L) :
    addrs.length ≤ L := by
  classical
  have hnd := chain_nodup hc
  have hsub : addrs.toFinset ⊆ Finset.range L := by
    intro a ha
    rw [List.mem_toFinset] at ha
    exact Finset.mem_range.2 (hlt a ha)
  have := Finset.card_le_card hsub
  rwa [List.toFinset_card_of_nodup hnd, Finset.card_range] at this

theorem chain_rel_getD {R : Nat → Nat → Prop} {addrs : List Nat}
    (hc : List.Chain' R addrs) {i : Nat} (hi : i + 1 < addrs.length) :
    R (addrs.getD i 0) (addrs.getD (i + 1) 0) := by
  rw [List.getD_eq_getElem _ _ (by omega), List.getD_eq_getElem _ _ hi]
  have := List.chain'_iff_get.1 hc i (by omega)
  simpa [List.get_eq_getElem] using this

theorem head?_eq_getD {addrs : List Nat} (hne : addrs ≠ []) :
    addrs.head? = some (addrs.getD 0 0) := by
  have hlen : 0 < addrs.length := List.length_pos.2 hne
  rw [List.head?_eq_getElem?, List.getElem?_eq_getElem hlen,
    List.getD_eq_getElem _ _ hlen]

theorem getLast?_eq_getD {addrs : List Nat} (hne : addrs ≠ []) :
    addrs.getLast? = some (addrs.getD (addrs.length - 1) 0) := by
  have hlen : 0 < addrs.length := List.length_pos.2 hne
  rw [List.getLast?_eq_getElem?, List.getElem?_eq_getElem (by omega),
    List.getD_eq_getElem _ _ (by omega)]

theorem getLastD_eq_getD {addrs : List Nat} (hne : addrs ≠ []) :
    addrs.getLastD 0 = addrs.getD (addrs.length - 1) 0 := by
  rw [List.getLastD_eq_getLast?, getLast?_eq_getD hne]
  rfl

theorem ChainOK.bound {B : Nat} {h : List (Bucket T)} {addrs : List Nat}
    (hc : ChainOK B h addrs) : ∀ a ∈ addrs, a < h.length := hc.1

theorem ChainOK.incr {B : Nat} {h : List (Bucket T)} {addrs : List Nat}
    (hc : ChainOK B h addrs) : List.Chain' (· < ·) addrs := hc.2.1

theorem ChainOK.nextChain {B : Nat} {h : List (Bucket T)} {addrs : List Nat}
    (hc : ChainOK B h addrs) :
    List.Chain' (fun a b => (h.getD a default).next = some b) addrs :=
  hc.2.2.1

theorem ChainOK.prevChain {B : Nat} {h : List (Bucket T)} {addrs : List Nat}
    (hc : ChainOK B h addrs) :
    List.Chain' (fun a b => (h.getD b default).prev = some a) addrs :=
  hc.2.2.2.1

theorem ChainOK.lastNone {B : Nat} {h : List (Bucket T)} {addrs : List Nat}
    (hc : ChainOK B h addrs) (hne : addrs ≠ []) :
    (h.getD (addrs.getD (addrs.length - 1) 0) default).next = none := by
  rcases hc.2.2.2.2.1 with hempty | hlast
  · exact absurd hempty hne
  · rwa [getLastD_eq_getD hne] at hlast

theorem ChainOK.itemsLen {B : Nat} {h : List (Bucket T)} {addrs : List Nat}
    (hc : ChainOK B h addrs) : ∀ a ∈ addrs, (itemsOf h a).length = B :=
  hc.2.2.2.2.2

theorem map_itemsOf_getD {h : List (Bucket T)} {addrs : List Nat} {i : Nat}
    (hi : i < addrs.length) :
    (addrs.map (itemsOf h)).getD i [] = itemsOf h (addrs.getD i 0) := by
  rw [List.getD_eq_getElem _ _ (by simpa using hi), List.getElem_map,
    List.getD_eq_getElem _ _ hi]

theorem repH_items_uniform [DecidableEq T] {B : Nat} {h : List (Bucket T)}
    {addrs : List Nat} {r : Nat} {vs : List T}
    (hr : RepH B h addrs r vs) :
    ∀ l ∈ addrs.map (itemsOf h), l.length = B := by
  intro l hl
  rw [List.mem_map] at hl
  obtain ⟨a, ha, rfl⟩ := hl
  exact hr.1.itemsLen a ha

theorem repH_facts [DecidableEq T] {B : Nat} {h : List (Bucket T)}
    {addrs : List Nat} {r : Nat} {vs : List T}
    (hr : RepH B h addrs r vs) (hne : vs ≠ []) :
    addrs ≠ [] ∧ 1 ≤ r ∧ r ≤ B ∧ 0 < B ∧ 1 ≤ addrs.length ∧
    vs.length = B * (addrs.length - 1) + r ∧
    vs.length ≤ addrs.length * B := by
  obtain ⟨hc, hcase⟩ := hr
  rcases hcase with ⟨_, hvs, _⟩ | ⟨hane, hr1, hrB, htake, hlen⟩
  · exact absurd hvs hne
  have hflat : (addrs.map (itemsOf h)).flatten.length = addrs.length * B := by
    rw [flatten_length_uniform _
      (repH_items_uniform ⟨hc, Or.inr ⟨hane, hr1, hrB, htake, hlen⟩⟩)]
    simp
  have hm : 1 ≤ addrs.length := by
    cases addrs with
    | nil => exact absurd rfl hane
    | cons a rest => simp
  have hmul : B * (addrs.length - 1) + B = B * addrs.length := by
    cases addrs with
    | nil => exact absurd rfl hane
    | cons a rest => simp [Nat.mul_succ]
  have hcomm : addrs.length * B = B * addrs.length := Nat.mul_comm _ _
  refine ⟨hane, hr1, hrB, by omega, hm, by omega, by omega⟩

theorem repH_getD [DecidableEq T] {B : Nat} {h : List (Bucket T)}
    {addrs : List Nat} {r : Nat} {vs : List T}
    (hr : RepH B h addrs r vs) {k : Nat} (hk : k < vs.length) :
    k / B < addrs.length ∧
    vs.getD k default =
      (itemsOf h (addrs.getD (k / B) 0)).getD (k % B) default := by
  have hne : vs ≠ [] := by
    intro hv; rw [hv] at hk; simp at hk
  obtain ⟨hane, hr1, hrB, hB, hm, hn, hnm⟩ := repH_facts hr hne
  obtain ⟨hc, hcase⟩ := hr
  rcases hcase with ⟨_, hvs, _⟩ | ⟨_, _, _, htake, hlen⟩
  · exact absurd hvs hne
  have hdiv : k / B < addrs.length := by
    rw [Nat.div_lt_iff_lt_mul hB]
    omega
  refine ⟨hdiv, ?_⟩
  have hsplit : B * (k / B) + k % B = k := by
    have := Nat.div_add_mod k B
    omega
  have hmod : k % B < B := Nat.mod_lt _ hB
  calc vs.getD k default
      = ((addrs.map (itemsOf h)).flatten.take vs.length).getD k default := by
        rw [htake]
    _ = (addrs.map (itemsOf h)).flatten.getD k default :=
        getD_take_of_lt _ _ hk
    _ = ((addrs.map (itemsOf h)).getD (k / B) []).getD (k % B) default := by
        have hfg := @flatten_getD T _ B (addrs.map (itemsOf h)) default
          (repH_items_uniform ⟨hc, Or.inr ⟨hane, hr1, hrB, htake, hlen⟩⟩)
          (k / B) (k % B) (by simpa using hdiv) hmod
        rw [hsplit] at hfg
        exact hfg
    _ = (itemsOf h (addrs.getD (k / B) 0)).getD (k % B) default := by
        rw [map_itemsOf_getD hdiv]

theorem posIt_end {B : Nat} (addrs : List Nat) (r n : Nat) :
    posIt B addrs r n n = ⟨addrs.getLast?, (r : Int)⟩ := by
  simp [posIt]

theorem posIt_begin {B : Nat} (addrs : List Nat) (r n : Nat)
    (hn : 0 < n) (hne : addrs ≠ []) :
    posIt B addrs r n 0 = ⟨addrs.head?, 0⟩ := by
  simp only [posIt, if_pos hn, Nat.zero_div, Nat.zero_mod, Nat.cast_zero,
    head?_eq_getD hne]

theorem posIt_deref [DecidableEq T] {B : Nat} {h : List (Bucket T)}
    {addrs : List Nat} {r : Nat} {vs : List T}
    (hr : RepH B h addrs r vs) {k : Nat} (hk : k < vs.length) :
    derefIt h (posIt B addrs r vs.length k) = some (vs.getD k default) := by
  have hne : vs ≠ [] := by intro hv; rw [hv] at hk; simp at hk
  obtain ⟨hane, hr1, hrB, hB, hm1, hn, hnm⟩ := repH_facts hr hne
  obtain ⟨hdiv, hval⟩ := repH_getD hr hk
  have hmem : addrs.getD (k / B) 0 ∈ addrs := chain_addr_getD_mem addrs hdiv
  have halt : addrs.getD (k / B) 0 < h.length := hr.1.bound _ hmem
  have hilen : (itemsOf h (addrs.getD (k / B) 0)).length = B :=
    hr.1.itemsLen _ hmem
  have hmod : k % B < B := Nat.mod_lt _ hB
  have hb : h.get? (addrs.getD (k / B) 0) =
      some (h.getD (addrs.getD (k / B) 0) default) := by
    rw [List.get?_eq_getElem?, List.getElem?_eq_getElem halt,
      List.getD_eq_getElem _ _ halt]
  have hitems : (h.getD (addrs.getD (k / B) 0) default).items =
      itemsOf h (addrs.getD (k / B) 0) := rfl
  have hget : (itemsOf h (addrs.getD (k / B) 0)).get? (k % B) =
      some (vs.getD k default) := by
    rw [List.get?_eq_getElem?, List.getElem?_eq_getElem
      (by rw [hilen]; exact hmod), hval]
    exact congrArg some
      (List.getD_eq_getElem _ _ (by rw [hilen]; exact hmod)).symm
  simp only [posIt, if_pos hk, derefIt, hb]
  rw [if_neg (by omega)]
  simp only [Int.toNat_natCast, hitems, hget]

theorem posIt_inc [DecidableEq T] {B : Nat} {h : List (Bucket T)}
    {addrs : List Nat} {r : Nat} {vs : List T}
    (hr : RepH B h addrs r vs) {k : Nat} (hk : k < vs.length) :
    incIt B h (posIt B addrs r vs.length k) =
      posIt B addrs r vs.length (k + 1) := by
  have hne : vs ≠ [] := by intro hv; rw [hv] at hk; simp at hk
  obtain ⟨hane, hr1, hrB, hB, hm1, hn, hnm⟩ := repH_facts hr hne
  have hdiv : k / B < addrs.length := (repH_getD hr hk).1
  have hsplit : B * (k / B) + k % B = k := by
    have := Nat.div_add_mod k B; omega
  have hmod : k % B < B := Nat.mod_lt _ hB
  rcases Nat.lt_or_ge (k % B + 1) B with hA | hge
  · -- the offset stays below BUCKET_SIZE: no bucket move
    have hL : incIt B h (posIt B addrs r vs.length k) =
        ⟨some (addrs.getD (k / B) 0), ((k % B : Nat) : Int) + 1⟩ := by
      simp only [posIt, if_pos hk, incIt]
      rw [if_neg]
      rintro ⟨h1, _⟩
      omega
    rw [hL]
    by_cases hcase : k + 1 < vs.length
    · have hdm := div_mod_pair hB (k / B) (k % B + 1) hA
      have hk1 : k + 1 = B * (k / B) + (k % B + 1) := by omega
      simp only [posIt, if_pos hcase]
      rw [hk1, hdm.1, hdm.2]
      simp only [SAIterator.mk.injEq, true_and]
      omega
    · have hkn : k + 1 = vs.length := by omega
      have hk' : k = B * (addrs.length - 1) + (r - 1) := by omega
      have hdm := div_mod_pair hB (addrs.length - 1) (r - 1) (by omega)
      have hqeq : k / B = addrs.length - 1 := by rw [hk', hdm.1]
      have hrqeq : k % B = r - 1 := by rw [hk', hdm.2]
      simp only [posIt]
      rw [if_neg (show ¬(k + 1 < vs.length) by omega),
        getLast?_eq_getD hane]
      simp only [SAIterator.mk.injEq]
      exact ⟨by rw [hqeq], by omega⟩
  · -- the offset hits BUCKET_SIZE
    have hrqB : k % B + 1 = B := by omega
    by_cases hcase : k + 1 < vs.length
    · -- a next bucket exists: move to it at offset 0
      have e1 : k + 1 = B * (k / B + 1) := by
        have hms : B * (k / B + 1) = B * (k / B) + B := Nat.mul_succ B (k / B)
        omega
      have hqm : k / B + 1 < addrs.length := by
        have e2 : vs.length ≤ B * addrs.length := by
          have := Nat.mul_comm addrs.length B; omega
        have e3 : B * (k / B + 1) < B * addrs.length := by omega
        exact Nat.lt_of_mul_lt_mul_left e3
      have hnext : (h.getD (addrs.getD (k / B) 0) default).next =
          some (addrs.getD (k / B + 1) 0) :=
        chain_rel_getD hr.1.nextChain hqm
      have hL : incIt B h (posIt B addrs r vs.length k) =
          ⟨some (addrs.getD (k / B + 1) 0), 0⟩ := by
        simp only [posIt, if_pos hk, incIt, bucketNext]
        rw [hnext, if_pos]
        exact ⟨by omega, by simp⟩
      rw [hL]
      have hdm := div_mod_pair hB (k / B + 1) 0 hB
      have hk1 : k + 1 = B * (k / B + 1) + 0 := by omega
      simp only [posIt, if_pos hcase]
      rw [hk1, hdm.1, hdm.2]
      simp
    · -- the last bucket is exactly full: next is null, no move (this is
      -- the captured end() position)
      have hkn : k + 1 = vs.length := by omega
      have hk' : k = B * (addrs.length - 1) + (r - 1) := by omega
      have hdm := div_mod_pair hB (addrs.length - 1) (r - 1) (by omega)
      have hqeq : k / B = addrs.length - 1 := by rw [hk', hdm.1]
      have hrqeq : k % B = r - 1 := by rw [hk', hdm.2]
      have hnone : (h.getD (addrs.getD (k / B) 0) default).next = none := by
        rw [hqeq]; exact hr.1.lastNone hane
      have hL : incIt B h (posIt B addrs r vs.length k) =
          ⟨some (addrs.getD (k / B) 0), ((k % B : Nat) : Int) + 1⟩ := by
        simp only [posIt, if_pos hk, incIt, bucketNext]
        rw [hnone, if_neg]
        rintro ⟨_, hcon⟩
        exact hcon rfl
      rw [hL]
      simp only [posIt]
      rw [if_neg (show ¬(k + 1 < vs.length) by omega),
        getLast?_eq_getD hane]
      simp only [SAIterator.mk.injEq]
      exact ⟨by rw [hqeq], by omega⟩

theorem posIt_dec [DecidableEq T] {B : Nat} {h : List (Bucket T)}
    {addrs : List Nat} {r : Nat} {vs : List T}
    (hr : RepH B h addrs r vs) {k : Nat} (hk1 : 1 ≤ k)
    (hk2 : k ≤ vs.length) :
    decIt B h (posIt B addrs r vs.length k) =
      posIt B addrs r vs.length (k - 1) := by
  have hne : vs ≠ [] := by
    intro hv; rw [hv] at hk2; simp at hk2; omega
  obtain ⟨hane, hr1, hrB, hB, hm1, hn, hnm⟩ := repH_facts hr hne
  rcases Nat.lt_or_ge k vs.length with hklt | hkge
  · -- k < n: the iterator sits at (chunk k / B, offset k % B)
    have hdiv : k / B < addrs.length := (repH_getD hr hklt).1
    have hsplit : B * (k / B) + k % B = k := by
      have := Nat.div_add_mod k B; omega
    have hmod : k % B < B := Nat.mod_lt _ hB
    rcases Nat.lt_or_ge 0 (k % B) with hpos | hzero
    · -- offset does not underflow
      have hL : decIt B h (posIt B addrs r vs.length k) =
          ⟨some (addrs.getD (k / B) 0), ((k % B : Nat) : Int) - 1⟩ := by
        simp only [posIt, if_pos hklt, decIt]
        rw [if_neg (by omega)]
      rw [hL]
      have hdm := div_mod_pair hB (k / B) (k % B - 1) (by omega)
      have hk' : k - 1 = B * (k / B) + (k % B - 1) := by omega
      simp only [posIt]
      rw [if_pos (by omega), hk', hdm.1, hdm.2]
      simp only [SAIterator.mk.injEq, true_and]
      omega
    · -- offset underflows: move to the prev bucket at offset B - 1
      have hq1 : 1 ≤ k / B := by
        rcases Nat.eq_zero_or_pos (k / B) with hz | hp
        · exfalso; rw [hz, Nat.mul_zero] at hsplit; omega
        · exact hp
      have hq : k / B - 1 + 1 < addrs.length := by omega
      have hprev : (h.getD (addrs.getD (k / B - 1 + 1) 0) default).prev =
          some (addrs.getD (k / B - 1) 0) :=
        chain_rel_getD hr.1.prevChain hq
      have hprev' : (h.getD (addrs.getD (k / B) 0) default).prev =
          some (addrs.getD (k / B - 1) 0) := by
        have : k / B - 1 + 1 = k / B := by omega
        rwa [this] at hprev
      have hL : decIt B h (posIt B addrs r vs.length k) =
          ⟨some (addrs.getD (k / B - 1) 0), (B : Int) - 1⟩ := by
        simp only [posIt, if_pos hklt, decIt, bucketPrev]
        rw [if_pos (by omega), hprev']
      rw [hL]
      have hdm := div_mod_pair hB (k / B - 1) (B - 1) (by omega)
      have hmulsub : B * (k / B - 1) + B = B * (k / B) := by
        have hms : B * (k / B - 1 + 1) = B * (k / B - 1) + B :=
          Nat.mul_succ B (k / B - 1)
        have hsucc : k / B - 1 + 1 = k / B := by omega
        rw [hsucc] at hms; omega
      have hk' : k - 1 = B * (k / B - 1) + (B - 1) := by omega
      simp only [posIt]
      rw [if_pos (by omega), hk', hdm.1, hdm.2]
      simp only [SAIterator.mk.injEq, true_and]
      omega
  · -- k = n: decrement from the captured end()
    have hkn : k = vs.length := by omega
    have hdm := div_mod_pair hB (addrs.length - 1) (r - 1) (by omega)
    have hk' : k - 1 = B * (addrs.length - 1) + (r - 1) := by omega
    have hL : decIt B h (posIt B addrs r vs.length k) =
        ⟨addrs.getLast?, (r : Int) - 1⟩ := by
      simp only [posIt]
      rw [if_neg (show ¬(k < vs.length) by omega)]
      simp only [decIt]
      rw [if_neg (by omega)]
    rw [hL]
    simp only [posIt]
    rw [if_pos (by omega), hk', hdm.1, hdm.2, getLast?_eq_getD hane]
    simp only [SAIterator.mk.injEq]
    exact ⟨trivial, by omega⟩

theorem posIt_inj [DecidableEq T] {B : Nat} {h : List (Bucket T)}
    {addrs : List Nat} {r : Nat} {vs : List T}
    (hr : RepH B h addrs r vs) {k k' : Nat} (hk : k ≤ vs.length)
    (hk' : k' ≤ vs.length)
    (heq : posIt B addrs r vs.length k = posIt B addrs r vs.length k') :
    k = k' := by
  rcases Nat.lt_or_ge k vs.length with hklt | hkge <;>
    rcases Nat.lt_or_ge k' vs.length with hklt' | hkge'
  · -- both interior
    have hne : vs ≠ [] := by intro hv; rw [hv] at hklt; simp at hklt
    obtain ⟨hane, hr1, hrB, hB, hm1, hn, hnm⟩ := repH_facts hr hne
    have hdiv : k / B < addrs.length := (repH_getD hr hklt).1
    have hdiv' : k' / B < addrs.length := (repH_getD hr hklt').1
    simp only [posIt, if_pos hklt, if_pos hklt', SAIterator.mk.injEq,
      Option.some.injEq] at heq
    have h1 : k / B = k' / B :=
      chain_getD_inj hr.1.incr hdiv hdiv' heq.1
    have h2 : k % B = k' % B := by omega
    have d1 := Nat.div_add_mod k B
    have d2 := Nat.div_add_mod k' B
    rw [h1] at d1
    omega
  · -- k interior, k' = end
    exfalso
    have hne : vs ≠ [] := by intro hv; rw [hv] at hklt; simp at hklt
    obtain ⟨hane, hr1, hrB, hB, hm1, hn, hnm⟩ := repH_facts hr hne
    have hdiv : k / B < addrs.length := (repH_getD hr hklt).1
    have hsplit : B * (k / B) + k % B = k := by
      have := Nat.div_add_mod k B; omega
    have hmod : k % B < B := Nat.mod_lt _ hB
    simp only [posIt, if_pos hklt, if_neg (show ¬(k' < vs.length) by omega)]
      at heq
    rw [getLast?_eq_getD hane] at heq
    simp only [SAIterator.mk.injEq, Option.some.injEq] at heq
    have h1 : k / B = addrs.length - 1 :=
      chain_getD_inj hr.1.incr hdiv (by omega) heq.1
    have h2 : k % B = r := by omega
    rw [h1] at hsplit
    omega
  · -- k = end, k' interior (symmetric)
    exfalso
    have hne : vs ≠ [] := by intro hv; rw [hv] at hklt'; simp at hklt'
    obtain ⟨hane, hr1, hrB, hB, hm1, hn, hnm⟩ := repH_facts hr hne
    have hdiv' : k' / B < addrs.length := (repH_getD hr hklt').1
    have hsplit : B * (k' / B) + k' % B = k' := by
      have := Nat.div_add_mod k' B; omega
    have hmod : k' % B < B := Nat.mod_lt _ hB
    simp only [posIt, if_pos hklt', if_neg (show ¬(k < vs.length) by omega)]
      at heq
    rw [getLast?_eq_getD hane] at heq
    simp only [SAIterator.mk.injEq, Option.some.injEq] at heq
    have h1 : addrs.length - 1 = k' / B :=
      chain_getD_inj hr.1.incr (by omega) hdiv' heq.1
    have h2 : r = k' % B := by omega
    rw [← h1] at hsplit
    omega
  · omega

theorem posIt_write [DecidableEq T] {B : Nat} {h : List (Bucket T)}
    {addrs : List Nat} {r : Nat} {vs : List T}
    (hr : RepH B h addrs r vs) {k : Nat} (hk : k < vs.length) (v : T) :
    ∃ h', writeIt h (posIt B addrs r vs.length k) v = some h' ∧
      RepH B h' addrs r (vs.set k v) ∧ h'.length = h.length := by
  have hne : vs ≠ [] := by intro hv; rw [hv] at hk; simp at hk
  obtain ⟨hane, hr1, hrB, hB, hm1, hn, hnm⟩ := repH_facts hr hne
  have hdiv : k / B < addrs.length := (repH_getD hr hk).1
  have hsplit : B * (k / B) + k % B = k := by
    have := Nat.div_add_mod k B; omega
  have hmod : k % B < B := Nat.mod_lt _ hB
  have hmem : addrs.getD (k / B) 0 ∈ addrs := chain_addr_getD_mem addrs hdiv
  have halt : addrs.getD (k / B) 0 < h.length := hr.1.bound _ hmem
  have hilen : (itemsOf h (addrs.getD (k / B) 0)).length = B :=
    hr.1.itemsLen _ hmem
  obtain ⟨hc, hcase⟩ := hr
  rcases hcase with ⟨_, hvs, _⟩ | ⟨_, _, _, htake, hlen⟩
  · exact absurd hvs hne
  set b := h.getD (addrs.getD (k / B) 0) default with hbdef
  set h' := h.set (addrs.getD (k / B) 0)
    { b with items := b.items.set (k % B) v } with hhdef
  have hblen : b.items.length = B := hilen
  refine ⟨h', ?_, ?_, by rw [hhdef, List.length_set]⟩
  · -- the write itself succeeds and produces h'
    have hb : h.get? (addrs.getD (k / B) 0) = some b := by
      rw [List.get?_eq_getElem?, List.getElem?_eq_getElem halt, hbdef,
        List.getD_eq_getElem _ _ halt]
    simp only [posIt, if_pos hk, writeIt, hb]
    rw [if_neg (by omega)]
    simp only [Int.toNat_natCast]
    rw [if_pos (by rw [hblen]; exact hmod)]
  · -- the new heap represents the updated sequence
    have hnp : ∀ x : Nat,
        (h'.getD x default).next = (h.getD x default).next ∧
        (h'.getD x default).prev = (h.getD x default).prev ∧
        (x ≠ addrs.getD (k / B) 0 →
          (h'.getD x default).items = (h.getD x default).items) := by
      intro x
      by_cases hx : x = addrs.getD (k / B) 0
      · subst hx
        rw [hhdef, getD_set_self _ _ _ halt]
        exact ⟨rfl, rfl, fun hcon => absurd rfl hcon⟩
      · rw [hhdef, getD_set_ne _ _ _ (fun hcon => hx hcon.symm)]
        exact ⟨rfl, rfl, fun _ => rfl⟩
    have hitems_a : itemsOf h' (addrs.getD (k / B) 0) =
        b.items.set (k % B) v := by
      rw [itemsOf, hhdef, getD_set_self _ _ _ halt]
    have hco' : ChainOK B h' addrs := by
      obtain ⟨hbound, hincr, hnext, hprev, hlast, hil⟩ := hc
      refine ⟨?_, hincr, ?_, ?_, ?_, ?_⟩
      · intro a ha; rw [hhdef, List.length_set]; exact hbound a ha
      · exact hnext.imp (fun {x y} hxy => by rw [(hnp x).1]; exact hxy)
      · exact hprev.imp (fun {x y} hxy => by rw [(hnp y).2.1]; exact hxy)
      · rcases hlast with hempty | hlast
        · exact Or.inl hempty
        · exact Or.inr (by rw [(hnp _).1]; exact hlast)
      · intro a ha
        by_cases hx : a = addrs.getD (k / B) 0
        · subst hx
          rw [hitems_a, List.length_set]
          exact hblen
        · rw [itemsOf, (hnp a).2.2 hx]
          exact hil a ha
    have hmap : addrs.map (itemsOf h') =
        (addrs.map (itemsOf h)).set (k / B) (b.items.set (k % B) v) := by
      apply List.ext_getElem?
      intro i
      rcases Nat.lt_or_ge i addrs.length with hi | hi
      · rw [List.getElem?_map, List.getElem?_eq_getElem hi]
        by_cases hik : i = k / B
        · subst hik
          rw [List.getElem?_set_self (by simpa using hi)]
          simp only [Option.map_some']
          rw [← List.getD_eq_getElem _ 0 hi, hitems_a]
        · rw [List.getElem?_set_ne (fun hcon => hik hcon.symm),
            List.getElem?_map, List.getElem?_eq_getElem hi]
          simp only [Option.map_some', Option.some.injEq]
          have haddr : addrs[i] ≠ addrs.getD (k / B) 0 := by
            intro hcon
            exact hik (chain_getD_inj hc.incr hi hdiv
              (by rw [← List.getD_eq_getElem _ 0 hi] at hcon; exact hcon))
          rw [itemsOf, (hnp addrs[i]).2.2 haddr]
          rfl
      · rw [List.getElem?_eq_none (by simpa using hi),
          List.getElem?_eq_none (by rw [List.length_set]; simpa using hi)]
    have hflat : (addrs.map (itemsOf h')).flatten =
        (addrs.map (itemsOf h)).flatten.set k v := by
      rw [hmap]
      have hfs := @flatten_set T _ B (addrs.map (itemsOf h)) v
        (repH_items_uniform ⟨hc, Or.inr ⟨hane, hr1, hrB, htake, hlen⟩⟩)
        (k / B) (k % B) (by simpa using hdiv) hmod
      rw [hsplit] at hfs
      rw [map_itemsOf_getD hdiv] at hfs
      exact hfs
    refine ⟨hco', Or.inr ⟨hane, hr1, hrB, ?_, ?_⟩⟩
    · rw [hflat, List.length_set, List.set_take, htake]
    · rw [hflat, List.length_set, List.length_set]
      exact hlen

theorem repH_empty [DecidableEq T] {B : Nat} {h : List (Bucket T)}
    {addrs : List Nat} {r : Nat}
    (hr : RepH B h addrs r []) : addrs = [] ∧ r = 0 := by
  obtain ⟨hc, hcase⟩ := hr
  rcases hcase with ⟨ha, _, hrz⟩ | ⟨hane, hr1, hrB, htake, hlen⟩
  · exact ⟨ha, hrz⟩
  · exfalso
    have hflat : (addrs.map (itemsOf h)).flatten.length = addrs.length * B := by
      rw [flatten_length_uniform _
        (repH_items_uniform ⟨hc, Or.inr ⟨hane, hr1, hrB, htake, hlen⟩⟩)]
      simp
    have hm : 1 ≤ addrs.length := by
      cases addrs with
      | nil => exact absurd rfl hane
      | cons a rest => simp
    have hmono : 1 * B ≤ addrs.length * B := Nat.mul_le_mul_right B hm
    simp only [List.length_nil] at hlen
    omega

theorem collectGo_rep [DecidableEq T] {B : Nat} {h : List (Bucket T)}
    {addrs : List Nat} {r : Nat} {vs : List T}
    (hr : RepH B h addrs r vs) :
    ∀ (fuel k : Nat), k ≤ vs.length → vs.length - k < fuel →
      collectGo B h ⟨addrs.getLast?, (r : Int)⟩ fuel
        (posIt B addrs r vs.length k) = some (vs.drop k) := by
  intro fuel
  induction fuel with
  | zero => intro k _ hfuel; omega
  | succ fuel ih =>
    intro k hk hfuel
    by_cases hkn : k = vs.length
    · subst hkn
      rw [posIt_end]
      simp [collectGo, List.drop_length]
    · have hklt : k < vs.length := by omega
      have hneq : posIt B addrs r vs.length k ≠ ⟨addrs.getLast?, (r : Int)⟩ := by
        rw [← @posIt_end B addrs r vs.length]
        intro hcon
        exact hkn (posIt_inj hr (by omega) (by omega) hcon)
      simp only [collectGo, if_neg hneq]
      rw [posIt_deref hr hklt, posIt_inc hr hklt,
        ih (k + 1) (by omega) (by omega)]
      exact congrArg some (drop_eq_getD_cons vs default hklt).symm

theorem collect_rep [DecidableEq T] {B : Nat} {s : SliceArray T}
    {addrs : List Nat} {vs : List T}
    (hrep : Rep B s addrs vs) : collect B s = some vs := by
  obtain ⟨hr, hfirst, hlast, _, _⟩ := hrep
  by_cases hvs : vs = []
  · subst hvs
    obtain ⟨haddr, hrz⟩ := repH_empty hr
    subst haddr
    simp only [collect, collectGo, beginIt, endIt, hfirst, hlast, hrz]
    simp
  · have hne := hvs
    obtain ⟨hane, hr1, hrB, hB, hm1, hn, hnm⟩ := repH_facts hr hne
    have hnpos : 0 < vs.length := List.length_pos.2 hne
    have hm : addrs.length ≤ s.heap.length :=
      chain_length_le hr.1.incr hr.1.bound
    have hfuel : vs.length - 0 < s.heap.length * B + 1 := by
      have h1 : addrs.length * B ≤ s.heap.length * B :=
        Nat.mul_le_mul_right B hm
      omega
    have hbegin : beginIt s = posIt B addrs s.fNextBucketIndex vs.length 0 := by
      rw [posIt_begin _ _ _ hnpos hane, beginIt, hfirst]
    have hend : endIt s =
        (⟨addrs.getLast?, (s.fNextBucketIndex : Int)⟩ : SAIterator) := by
      rw [endIt, hlast]
    rw [collect, hbegin, hend, collectGo_rep hr _ 0 (by omega) hfuel]
    simp

theorem write_last_slot [DecidableEq T] {B : Nat} {h : List (Bucket T)}
    {addrs : List Nat} {r : Nat} {vs : List T}
    (hc : ChainOK B h addrs) (hane : addrs ≠ []) (hrB : r < B)
    (htake : (addrs.map (itemsOf h)).flatten.take vs.length = vs)
    (hlen : (addrs.map (itemsOf h)).flatten.length = vs.length + (B - r))
    (v : T) :
    RepH B
      (h.set (addrs.getD (addrs.length - 1) 0)
        { h.getD (addrs.getD (addrs.length - 1) 0) default with
          items := (h.getD (addrs.getD (addrs.length - 1) 0) default).items.set r v })
      addrs (r + 1) (vs ++ [v]) := by
  have huniform : ∀ l ∈ addrs.map (itemsOf h), l.length = B := by
    intro l hl
    rw [List.mem_map] at hl
    obtain ⟨a, ha, rfl⟩ := hl
    exact hc.itemsLen a ha
  have hm1 : 1 ≤ addrs.length := by
    cases addrs with
    | nil => exact absurd rfl hane
    | cons x rest => simp
  have hflat : (addrs.map (itemsOf h)).flatten.length = addrs.length * B := by
    rw [flatten_length_uniform _ huniform]; simp
  have hmul : B * (addrs.length - 1) + B = B * addrs.length := by
    cases addrs with
    | nil => exact absurd rfl hane
    | cons x rest => simp [Nat.mul_succ]
  have hcomm : addrs.length * B = B * addrs.length := Nat.mul_comm _ _
  have hn : vs.length = B * (addrs.length - 1) + r := by omega
  have hdiv : addrs.length - 1 < addrs.length := by omega
  set a := addrs.getD (addrs.length - 1) 0 with hadef
  have hmem : a ∈ addrs := chain_addr_getD_mem addrs hdiv
  have halt : a < h.length := hc.bound _ hmem
  have hilen : (itemsOf h a).length = B := hc.itemsLen _ hmem
  set b := h.getD a default with hbdef
  have hblen : b.items.length = B := hilen
  set h' := h.set a { b with items := b.items.set r v } with hhdef
  have hnp : ∀ x : Nat,
      (h'.getD x default).next = (h.getD x default).next ∧
      (h'.getD x default).prev = (h.getD x default).prev ∧
      (x ≠ a → (h'.getD x default).items = (h.getD x default).items) := by
    intro x
    by_cases hx : x = a
    · subst hx
      rw [hhdef, getD_set_self _ _ _ halt]
      exact ⟨rfl, rfl, fun hcon => absurd rfl hcon⟩
    · rw [hhdef, getD_set_ne _ _ _ (fun hcon => hx hcon.symm)]
      exact ⟨rfl, rfl, fun _ => rfl⟩
  have hitems_a : itemsOf h' a = b.items.set r v := by
    rw [itemsOf, hhdef, getD_set_self _ _ _ halt]
  have hco' : ChainOK B h' addrs := by
    obtain ⟨hbound, hincr, hnext, hprev, hlast, hil⟩ := hc
    refine ⟨?_, hincr, ?_, ?_, ?_, ?_⟩
    · intro x hx; rw [hhdef, List.length_set]; exact hbound x hx
    · exact hnext.imp (fun {x y} hxy => by rw [(hnp x).1]; exact hxy)
    · exact hprev.imp (fun {x y} hxy => by rw [(hnp y).2.1]; exact hxy)
    · rcases hlast with hempty | hlast
      · exact Or.inl hempty
      · exact Or.inr (by rw [(hnp _).1]; exact hlast)
    · intro x hx
      by_cases hxa : x = a
      · subst hxa
        rw [hitems_a, List.length_set]
        exact hblen
      · rw [itemsOf, (hnp x).2.2 hxa]
        exact hil x hx
  have hmap : addrs.map (itemsOf h') =
      (addrs.map (itemsOf h)).set (addrs.length - 1) (b.items.set r v) := by
    apply List.ext_getElem?
    intro i
    rcases Nat.lt_or_ge i addrs.length with hi | hi
    · rw [List.getElem?_map, List.getElem?_eq_getElem hi]
      by_cases hik : i = addrs.length - 1
      · subst hik
        rw [List.getElem?_set_self (by simpa using hdiv)]
        simp only [Option.map_some']
        rw [← List.getD_eq_getElem _ 0 hi, ← hadef, hitems_a]
      · rw [List.getElem?_set_ne (fun hcon => hik hcon.symm),
          List.getElem?_map, List.getElem?_eq_getElem hi]
        simp only [Option.map_some', Option.some.injEq]
        have haddr : addrs[i] ≠ a := by
          intro hcon
          exact hik (chain_getD_inj hc.incr hi hdiv
            (by rw [← List.getD_eq_getElem _ 0 hi] at hcon; rw [hcon]))
        rw [itemsOf, (hnp addrs[i]).2.2 haddr]
        rfl
    · rw [List.getElem?_eq_none (by simpa using hi),
        List.getElem?_eq_none (by rw [List.length_set]; simpa using hi)]
  have hflat' : (addrs.map (itemsOf h')).flatten =
      (addrs.map (itemsOf h)).flatten.set vs.length v := by
    rw [hmap]
    have hfs := @flatten_set T _ B (addrs.map (itemsOf h)) v huniform
      (addrs.length - 1) r (by simpa using hdiv) hrB
    rw [map_itemsOf_getD hdiv, ← hadef,
      show itemsOf h a = b.items from rfl, ← hn] at hfs
    exact hfs
  have hdropsplit : (addrs.map (itemsOf h)).flatten =
      vs ++ (addrs.map (itemsOf h)).flatten.drop vs.length := by
    conv_lhs => rw [← List.take_append_drop vs.length
      ((addrs.map (itemsOf h)).flatten), htake]
  have hdlen : ((addrs.map (itemsOf h)).flatten.drop vs.length).length
      = B - r := by
    rw [List.length_drop, hlen]; omega
  obtain ⟨w, ws, hws⟩ : ∃ w ws,
      (addrs.map (itemsOf h)).flatten.drop vs.length = w :: ws := by
    cases hdrop : (addrs.map (itemsOf h)).flatten.drop vs.length with
    | nil => rw [hdrop] at hdlen; simp at hdlen; omega
    | cons w ws => exact ⟨w, ws, rfl⟩
  have hset : (addrs.map (itemsOf h)).flatten.set vs.length v =
      vs ++ v :: ws := by
    conv_lhs => rw [hdropsplit, hws]
    rw [List.set_append, if_neg (by omega), Nat.sub_self, List.set_cons_zero]
  refine ⟨hco', Or.inr ⟨hane, by omega, by omega, ?_, ?_⟩⟩
  · rw [hflat', hset]
    simp only [List.length_append, List.length_singleton]
    rw [List.take_append 1]
    simp
  · rw [hflat', List.length_set, hlen, List.length_append,
      List.length_singleton]
    omega

theorem getD_append_left (h : List (Bucket T)) (l : List (Bucket T))
    {x : Nat} (hx : x < h.length) :
    (h ++ l).getD x default = h.getD x default := by
  rw [List.getD_eq_getElem?_getD, List.getElem?_append_left hx,
    ← List.getD_eq_getElem?_getD]

theorem getD_concat_self (h : List (Bucket T)) (nb : Bucket T) :
    (h ++ [nb]).getD h.length default = nb := by
  rw [List.getD_eq_getElem?_getD, List.getElem?_concat_length]
  rfl

theorem chainOK_singleton {B : Nat} (h : List (Bucket T)) :
    ChainOK B (h ++ [⟨none, none, List.replicate B default⟩]) [h.length] := by
  refine ⟨?_, List.chain'_singleton _, List.chain'_singleton _,
    List.chain'_singleton _, Or.inr ?_, ?_⟩
  · intro a ha
    simp only [List.mem_singleton] at ha
    subst ha
    simp
  · have : ([h.length] : List Nat).getLastD 0 = h.length := rfl
    rw [this, getD_concat_self]
  · intro a ha
    simp only [List.mem_singleton] at ha
    subst ha
    rw [itemsOf, getD_concat_self]
    simp

theorem chainOK_grow {B : Nat} {h : List (Bucket T)} {addrs : List Nat}
    {lb : Nat} {nb : Bucket T} {h2 : List (Bucket T)}
    (hc : ChainOK B h addrs) (hane : addrs ≠ [])
    (hlbdef : lb = addrs.getD (addrs.length - 1) 0)
    (hnbdef : nb = ⟨none, some lb, List.replicate B default⟩)
    (hh2def : h2 = (h ++ [nb]).set lb
      { (h ++ [nb]).getD lb default with next := some h.length }) :
    ChainOK B h2 (addrs ++ [h.length]) ∧
    (∀ x, x ≠ h.length → itemsOf h2 x = itemsOf h x) ∧
    h2.getD h.length default = nb := by
  have hm1 : 1 ≤ addrs.length := by
    cases addrs with
    | nil => exact absurd rfl hane
    | cons x rest => simp
  have hmem : lb ∈ addrs := by
    rw [hlbdef]; exact chain_addr_getD_mem addrs (by omega)
  have hlb : lb < h.length := hc.bound _ hmem
  have hlen2 : h2.length = h.length + 1 := by
    rw [hh2def, List.length_set, List.length_append]
    simp
  have hgetlb : h2.getD lb default =
      { h.getD lb default with next := some h.length } := by
    rw [hh2def, getD_set_self _ _ _ (by rw [List.length_append]; simp; omega),
      getD_append_left _ _ hlb]
  have hgetlen : h2.getD h.length default = nb := by
    rw [hh2def, getD_set_ne _ _ _ (by omega), getD_concat_self]
  have hgetlo : ∀ x, x < h.length → x ≠ lb →
      h2.getD x default = h.getD x default := by
    intro x hx hxlb
    rw [hh2def, getD_set_ne _ _ _ (fun hcon => hxlb hcon.symm),
      getD_append_left _ _ hx]
  have hgethi : ∀ x, h.length < x → h2.getD x default = default := by
    intro x hx
    rw [List.getD_eq_default _ _ (by omega)]
  have hnbnext : nb.next = none := by rw [hnbdef]
  have hnbprev : nb.prev = some lb := by rw [hnbdef]
  have hkeepn : ∀ x, x ≠ lb →
      (h2.getD x default).next = (h.getD x default).next := by
    intro x hxlb
    rcases Nat.lt_trichotomy x h.length with hx | hx | hx
    · rw [hgetlo x hx hxlb]
    · subst hx
      rw [hgetlen, List.getD_eq_default _ _ (Nat.le_refl _), hnbnext]
      rfl
    · rw [hgethi x hx, List.getD_eq_default _ _ (by omega)]
  have hkeepp : ∀ y, y ≠ h.length →
      (h2.getD y default).prev = (h.getD y default).prev := by
    intro y hy
    rcases Nat.lt_trichotomy y h.length with hx | hx | hx
    · by_cases hylb : y = lb
      · subst hylb
        rw [hgetlb]
      · rw [hgetlo y hx hylb]
    · exact absurd hx hy
    · rw [hgethi y hx, List.getD_eq_default _ _ (by omega)]
  have hitems : ∀ x, x ≠ h.length → itemsOf h2 x = itemsOf h x := by
    intro x hx
    rcases Nat.lt_trichotomy x h.length with hlt | heq | hgt
    · by_cases hxlb : x = lb
      · subst hxlb
        rw [itemsOf, itemsOf, hgetlb]
      · rw [itemsOf, itemsOf, hgetlo x hlt hxlb]
    · exact absurd heq hx
    · rw [itemsOf, itemsOf, hgethi x hgt, List.getD_eq_default _ _ (by omega)]
  have hlastlb : addrs.getLast? = some lb := by
    rw [hlbdef]; exact getLast?_eq_getD hane
  refine ⟨⟨?_, ?_, ?_, ?_, Or.inr ?_, ?_⟩, hitems, hgetlen⟩
  · intro a ha
    rw [hlen2]
    rcases List.mem_append.1 ha with ha | ha
    · have := hc.bound a ha; omega
    · simp only [List.mem_singleton] at ha; omega
  · rw [List.chain'_append]
    refine ⟨hc.incr, List.chain'_singleton _, ?_⟩
    intro x hx y hy
    rw [hlastlb] at hx
    simp only [List.head?_cons, Option.mem_def, Option.some.injEq] at hx hy
    subst hx; subst hy
    exact hlb
  · rw [List.chain'_append]
    refine ⟨?_, List.chain'_singleton _, ?_⟩
    · refine hc.nextChain.imp (fun {x y} hxy => ?_)
      by_cases hxlb : x = lb
      · subst hxlb
        rw [hlbdef] at hxy
        rw [hc.lastNone hane] at hxy
        exact Option.noConfusion hxy
      · rw [hkeepn x hxlb]; exact hxy
    · intro x hx y hy
      rw [hlastlb] at hx
      simp only [List.head?_cons, Option.mem_def, Option.some.injEq] at hx hy
      subst hx; subst hy
      rw [hgetlb]
  · rw [List.chain'_append]
    refine ⟨?_, List.chain'_singleton _, ?_⟩
    · refine hc.prevChain.imp (fun {x y} hxy => ?_)
      by_cases hylen : y = h.length
      · subst hylen
        rw [List.getD_eq_default _ _ (Nat.le_refl _)] at hxy
        exact Option.noConfusion hxy
      · rw [hkeepp y hylen]; exact hxy
    · intro x hx y hy
      rw [hlastlb] at hx
      simp only [List.head?_cons, Option.mem_def, Option.some.injEq] at hx hy
      subst hx; subst hy
      rw [hgetlen, hnbprev]
  · have hld : (addrs ++ [h.length]).getLastD 0 = h.length := by
      rw [List.getLastD_eq_getLast?, List.getLast?_concat]
      rfl
    rw [hld, hgetlen, hnbnext]
  · intro a ha
    rcases List.mem_append.1 ha with ha | ha
    · have hne : a ≠ h.length := by
        have := hc.bound a ha; omega
      rw [hitems a hne]
      exact hc.itemsLen a ha
    · simp only [List.mem_singleton] at ha
      subst ha
      rw [itemsOf, hgetlen, hnbdef]
      exact List.length_replicate B default

theorem getD_concat_nat (l : List Nat) (x : Nat) :
    (l ++ [x]).getD l.length 0 = x := by
  rw [List.getD_eq_getElem?_getD, List.getElem?_concat_length]
  rfl

theorem appendLoop_succ {B : Nat} (v : T) (fuel : Nat) (s : SliceArray T) :
    appendLoop B v (fuel + 1) s =
      if s.fNextBucketIndex = B ∨ s.fLastBucket = none then
        match allocateBucketRun B s with
        | none => none
        | some s1 => appendLoop B v fuel s1
      else
        match casNextBucketIndex s s.fNextBucketIndex
            (s.fNextBucketIndex + 1) with
        | (true, s1) => writeSlot s1 s.fLastBucket s.fNextBucketIndex v
        | (false, s1) => appendLoop B v fuel s1 := rfl

theorem cas_self (s : SliceArray T) :
    casNextBucketIndex s s.fNextBucketIndex (s.fNextBucketIndex + 1) =
      (true, { s with fNextBucketIndex := s.fNextBucketIndex + 1 }) := by
  simp [casNextBucketIndex]

theorem writeSlot_some {s : SliceArray T} {a : Nat} {b : Bucket T}
    (hb : s.heap.get? a = some b) {index : Nat}
    (hi : index < b.items.length) (v : T) :
    writeSlot s (some a) index v =
      some { s with heap := s.heap.set a { b with items := b.items.set index v } } := by
  have hb2 : s.heap[a]? = some b := by rw [← List.get?_eq_getElem?]; exact hb
  simp [writeSlot, hb2, hi]

theorem allocate_empty {B : Nat} {s : SliceArray T} (hlock : s.fLock = false)
    (halloc : s.fAllocator = true) (hlast : s.fLastBucket = none) :
    allocateBucketRun B s =
      some { s with
        heap := s.heap ++ [(⟨none, none, List.replicate B default⟩ : Bucket T)],
        fFirstBucket := some s.heap.length,
        fLastBucket := some s.heap.length,
        fNextBucketIndex := 0, fLock := false } := by
  simp [allocateBucketRun, hlock, halloc, hlast]

theorem allocate_full {B : Nat} {s : SliceArray T} {lb : Nat}
    (hlock : s.fLock = false) (halloc : s.fAllocator = true)
    (hlast : s.fLastBucket = some lb) (hfull : s.fNextBucketIndex = B)
    (hlb : lb < s.heap.length) :
    allocateBucketRun B s =
      some { s with
        heap := (s.heap ++ [(⟨none, some lb, List.replicate B default⟩ : Bucket T)]).set lb { (s.heap ++ [(⟨none, some lb, List.replicate B default⟩ : Bucket T)]).getD lb default with next := some s.heap.length },
        fLastBucket := some s.heap.length,
        fNextBucketIndex := 0, fLock := false } := by
  simp [allocateBucketRun, hlock, halloc, hlast, hfull, hlb]

theorem allocate_noop {B : Nat} {s : SliceArray T} {lb : Nat}
    (hlock : s.fLock = false) (hnb : s.fNextBucketIndex ≠ B)
    (hlast : s.fLastBucket = some lb) :
    allocateBucketRun B s = some s := by
  simp only [allocateBucketRun, hlock, hlast]
  rw [if_neg (by simp), if_neg (by simp [hnb])]
  rw [← hlast, ← hlock]

theorem appendLoop_grow {B : Nat} {v : T} {fuel : Nat} {s s1 : SliceArray T}
    (hcond : s.fNextBucketIndex = B ∨ s.fLastBucket = none)
    (halloc : allocateBucketRun B s = some s1) :
    appendLoop B v (fuel + 1) s = appendLoop B v fuel s1 := by
  rw [appendLoop_succ, if_pos hcond, halloc]

theorem appendLoop_write {B : Nat} {v : T} {fuel : Nat} {s : SliceArray T}
    (hcond : ¬(s.fNextBucketIndex = B ∨ s.fLastBucket = none)) :
    appendLoop B v (fuel + 1) s =
      writeSlot { s with fNextBucketIndex := s.fNextBucketIndex + 1 }
        s.fLastBucket s.fNextBucketIndex v := by
  rw [appendLoop_succ, if_neg hcond, cas_self]

theorem append_rep [DecidableEq T] {B : Nat} (hB : 1 ≤ B)
    {s : SliceArray T} {addrs : List Nat} {vs : List T}
    (hrep : Rep B s addrs vs) (v : T) :
    ∃ addrs' s', append B s v = some s' ∧ Rep B s' addrs' (vs ++ [v]) := by
  obtain ⟨hr, hfirst, hlast, halloc, hlock⟩ := hrep
  obtain ⟨hc, hcase⟩ := hr
  rcases hcase with ⟨hane0, hvs0, hr0⟩ | ⟨hane, hr1, hrB, htake, hlen⟩
  · -- the container is empty: grow the initial bucket, then write slot 0
    subst hvs0
    subst hane0
    simp only [List.head?] at hfirst
    simp only [List.getLast?] at hlast
    have ha1 := @allocate_empty T _ B s hlock halloc hlast
    set nb : Bucket T := ⟨none, none, List.replicate B default⟩ with hnb
    set L := s.heap.length with hL
    set s2 : SliceArray T := { s with
      heap := s.heap ++ [nb], fFirstBucket := some L, fLastBucket := some L,
      fNextBucketIndex := 0, fLock := false } with hs2
    have hstep1 : append B s v = appendLoop B v 1 s2 :=
      appendLoop_grow (Or.inr hlast) ha1
    have hcond2 : ¬(s2.fNextBucketIndex = B ∨ s2.fLastBucket = none) := by
      rw [hs2]
      simp
      omega
    have hget : s2.heap.get? L = some nb := by
      rw [hs2, hL]
      rw [List.get?_eq_getElem?]
      exact List.getElem?_concat_length s.heap nb
    have hnblen : (0 : Nat) < nb.items.length := by
      rw [hnb]
      simp
      omega
    have hstep2 : append B s v =
        some { s2 with
          fNextBucketIndex := 1,
          heap := s2.heap.set L { nb with items := nb.items.set 0 v } } := by
      rw [hstep1, appendLoop_write hcond2]
      have hlb2 : s2.fLastBucket = some L := rfl
      have hn2 : s2.fNextBucketIndex = 0 := rfl
      rw [hlb2, hn2]
      exact @writeSlot_some T _ { s2 with fNextBucketIndex := 1 } L nb
        hget 0 hnblen v
    refine ⟨[L], _, hstep2, ?_, rfl, rfl, halloc, rfl⟩
    -- representation of the one-bucket, one-element state
    have hws := @write_last_slot T _ _ B (s.heap ++ [nb]) [L] 0 []
      (chainOK_singleton s.heap) (by simp) (by omega)
      (by simp) ?_ v
    · have he1 : ([L] : List Nat).getD ([L].length - 1) 0 = L := rfl
      rw [he1, getD_concat_self] at hws
      exact hws
    · have : itemsOf (s.heap ++ [nb]) L = List.replicate B default := by
        rw [itemsOf, getD_concat_self, hnb]
      simp [this]
  · -- the container is non-empty
    have hane' := hane
    have hm1 : 1 ≤ addrs.length := by
      cases addrs with
      | nil => exact absurd rfl hane
      | cons x rest => simp
    set lb := addrs.getD (addrs.length - 1) 0 with hlbdef
    have hlast' : s.fLastBucket = some lb := by
      rw [hlast, getLast?_eq_getD hane]
    have hmem : lb ∈ addrs := chain_addr_getD_mem addrs (by omega)
    have hlb : lb < s.heap.length := hc.bound _ hmem
    rcases Nat.lt_or_ge s.fNextBucketIndex B with hlt | hge
    · -- room in the last bucket: CAS and write slot r
      have hcond : ¬(s.fNextBucketIndex = B ∨ s.fLastBucket = none) := by
        rw [hlast']
        simp
        omega
      set b := s.heap.getD lb default with hbdef
      have hget : s.heap.get? lb = some b := by
        rw [List.get?_eq_getElem?, List.getElem?_eq_getElem hlb, hbdef,
          List.getD_eq_getElem _ _ hlb]
      have hblen : b.items.length = B := hc.itemsLen _ hmem
      have harg : writeSlot { s with
            fNextBucketIndex := s.fNextBucketIndex + 1 }
          s.fLastBucket s.fNextBucketIndex v =
          writeSlot { s with fNextBucketIndex := s.fNextBucketIndex + 1 }
            (some lb) s.fNextBucketIndex v := by
        rw [hlast']
      have hstep : append B s v =
          some { s with
            fNextBucketIndex := s.fNextBucketIndex + 1,
            heap := s.heap.set lb
              { b with items := b.items.set s.fNextBucketIndex v } } := by
        rw [append, appendLoop_write hcond, harg]
        exact @writeSlot_some T _
          { s with fNextBucketIndex := s.fNextBucketIndex + 1 } lb b
          hget s.fNextBucketIndex (show s.fNextBucketIndex < b.items.length by
            rw [hblen]; omega) v
      refine ⟨addrs, _, hstep, ?_, hfirst, hlast, halloc, hlock⟩
      have hws := @write_last_slot T _ _ B s.heap addrs
        s.fNextBucketIndex vs hc hane (by omega) htake hlen v
      rw [← hlbdef, ← hbdef] at hws
      exact hws
    · -- the last bucket is full: grow, then write slot 0 of the new bucket
      have hfull : s.fNextBucketIndex = B := by omega
      set nb : Bucket T := ⟨none, some lb, List.replicate B default⟩ with hnb
      set L := s.heap.length with hL
      set h2 := (s.heap ++ [nb]).set lb
        { (s.heap ++ [nb]).getD lb default with next := some L } with hh2
      have ha1 := @allocate_full T _ B s lb hlock halloc hlast' hfull hlb
      set s2 : SliceArray T := { s with
        heap := h2, fLastBucket := some L,
        fNextBucketIndex := 0, fLock := false } with hs2
      have hstep1 : append B s v = appendLoop B v 1 s2 :=
        appendLoop_grow (Or.inl hfull) ha1
      obtain ⟨hc2, hitems2, hgetlen2⟩ :=
        @chainOK_grow T _ B s.heap addrs lb nb h2 hc hane hlbdef hnb hh2
      have hcond2 : ¬(s2.fNextBucketIndex = B ∨ s2.fLastBucket = none) := by
        rw [hs2]
        simp
        omega
      have hlen2 : h2.length = L + 1 := by
        rw [hh2, List.length_set, List.length_append, hL]
        simp
      have hget : s2.heap.get? L = some nb := by
        have : s2.heap = h2 := rfl
        rw [this, List.get?_eq_getElem?, List.getElem?_eq_getElem (by omega)]
        rw [← List.getD_eq_getElem h2 default (by omega), hgetlen2]
      have hnblen : (0 : Nat) < nb.items.length := by
        rw [hnb]
        simp
        omega
      have hstep2 : append B s v =
          some { s2 with
            fNextBucketIndex := 1,
            heap := h2.set L { nb with items := nb.items.set 0 v } } := by
        rw [hstep1, appendLoop_write hcond2]
        have hlb2 : s2.fLastBucket = some L := rfl
        have hn2 : s2.fNextBucketIndex = 0 := rfl
        rw [hlb2, hn2]
        exact @writeSlot_some T _ { s2 with fNextBucketIndex := 1 } L nb
          hget 0 hnblen v
      refine ⟨addrs ++ [L], _, hstep2, ?_, ?_, ?_, halloc, rfl⟩
      · -- heap-level representation after writing the fresh slot
        have hmapeq : (addrs ++ [L]).map (itemsOf h2) =
            addrs.map (itemsOf s.heap) ++ [List.replicate B default] := by
          rw [List.map_append]
          congr 1
          · exact List.map_congr_left (fun a ha => hitems2 a (by
              have := hc.bound a ha; omega))
          · simp only [List.map_cons, List.map_nil]
            congr 1
            rw [itemsOf, hgetlen2, hnb]
        have hflatvs : (addrs.map (itemsOf s.heap)).flatten = vs := by
          have hlen0 : (addrs.map (itemsOf s.heap)).flatten.length
              = vs.length := by
            rw [hlen]
            omega
          calc (addrs.map (itemsOf s.heap)).flatten
              = (addrs.map (itemsOf s.heap)).flatten.take
                  (addrs.map (itemsOf s.heap)).flatten.length := by
                rw [List.take_length]
            _ = (addrs.map (itemsOf s.heap)).flatten.take vs.length := by
                rw [hlen0]
            _ = vs := htake
        have htake2 : ((addrs ++ [L]).map (itemsOf h2)).flatten.take vs.length
            = vs := by
          rw [hmapeq, List.flatten_append, hflatvs]
          rw [List.take_left' rfl]
        have hlen2' : ((addrs ++ [L]).map (itemsOf h2)).flatten.length
            = vs.length + (B - 0) := by
          rw [hmapeq, List.flatten_append, hflatvs]
          simp
        have hws := @write_last_slot T _ _ B h2
          (addrs ++ [L]) 0 vs hc2 (by simp)
          (by omega) htake2 hlen2' v
        have he1 : (addrs ++ [L]).getD ((addrs ++ [L]).length - 1) 0 = L := by
          have : (addrs ++ [L]).length - 1 = addrs.length := by simp
          rw [this, getD_concat_nat]
        rw [he1, hgetlen2] at hws
        exact hws
      · -- fFirstBucket still points at the head of the chain
        have : (addrs ++ [L]).head? = addrs.head? := by
          cases addrs with
          | nil => exact absurd rfl hane
          | cons x rest => simp
        rw [this]
        exact hfirst
      · -- fLastBucket points at the new tail
        rw [List.getLast?_concat]

theorem innerLoop_succ {B : Nat} (gt : T → T → Bool) (first : Option Nat)
    (fuel : Nat) (h : List (Bucket T)) (j : SAIterator) :
    innerLoop B gt first (fuel + 1) h j =
      if j = ⟨first, 0⟩ then some h
      else
        match derefIt h (decIt B h j), derefIt h j with
        | some pv, some jv =>
          if gt pv jv then
            match writeIt h j pv with
            | none => none
            | some h1 =>
              match writeIt h1 (decIt B h1 j) jv with
              | none => none
              | some h2 => innerLoop B gt first fuel h2 (decIt B h2 j)
          else some h
        | _, _ => none := rfl

theorem innerLoop_noswap {B : Nat} {gt : T → T → Bool} {first : Option Nat}
    {fuel : Nat} {h : List (Bucket T)} {j : SAIterator} {pv jv : T}
    (hneq : j ≠ ⟨first, 0⟩) (hpv : derefIt h (decIt B h j) = some pv)
    (hjv : derefIt h j = some jv) (hgt : gt pv jv = false) :
    innerLoop B gt first (fuel + 1) h j = some h := by
  rw [innerLoop_succ, if_neg hneq, hpv, hjv]
  simp [hgt]

theorem innerLoop_swap {B : Nat} {gt : T → T → Bool} {first : Option Nat}
    {fuel : Nat} {h h1 h2 : List (Bucket T)} {j : SAIterator} {pv jv : T}
    (hneq : j ≠ ⟨first, 0⟩) (hpv : derefIt h (decIt B h j) = some pv)
    (hjv : derefIt h j = some jv) (hgt : gt pv jv = true)
    (hw1 : writeIt h j pv = some h1)
    (hw2 : writeIt h1 (decIt B h1 j) jv = some h2) :
    innerLoop B gt first (fuel + 1) h j =
      innerLoop B gt first fuel h2 (decIt B h2 j) := by
  rw [innerLoop_succ, if_neg hneq, hpv, hjv]
  simp [hgt, hw1, hw2]

theorem outerLoop_succ {B : Nat} (gt : T → T → Bool) (first : Option Nat)
    (e : SAIterator) (fuel : Nat) (h : List (Bucket T)) (i : SAIterator) :
    outerLoop B gt first e (fuel + 1) h i =
      if i = e then some h
      else
        match innerLoop B gt first (h.length * B + 1) h i with
        | none => none
        | some h1 => outerLoop B gt first e fuel h1 (incIt B h1 i) := rfl

theorem outerLoop_step {B : Nat} {gt : T → T → Bool} {first : Option Nat}
    {e : SAIterator} {fuel : Nat} {h h1 : List (Bucket T)} {i : SAIterator}
    (hneq : i ≠ e)
    (hinner : innerLoop B gt first (h.length * B + 1) h i = some h1) :
    outerLoop B gt first e (fuel + 1) h i =
      outerLoop B gt first e fuel h1 (incIt B h1 i) := by
  rw [outerLoop_succ, if_neg hneq, hinner]

theorem innerLoop_sim [DecidableEq T] {B : Nat} {addrs : List Nat} {r : Nat}
    (gt : T → T → Bool) :
    ∀ (k fuel : Nat) (h : List (Bucket T)) (ws : List T),
      RepH B h addrs r ws → k < ws.length → k < fuel →
      ∃ h', innerLoop B gt addrs.head? fuel h
          (posIt B addrs r ws.length k) = some h' ∧
        RepH B h' addrs r (insStep gt k ws) ∧ h'.length = h.length := by
  intro k
  induction k with
  | zero =>
    intro fuel h ws hr hk hfuel
    cases fuel with
    | zero => omega
    | succ f =>
      have hne : ws ≠ [] := by intro hv; rw [hv] at hk; simp at hk
      obtain ⟨hane, _, _, _, _, _, _⟩ := repH_facts hr hne
      have hb0 : posIt B addrs r ws.length 0 = ⟨addrs.head?, 0⟩ :=
        posIt_begin _ _ _ (by omega) hane
      exact ⟨h, by rw [innerLoop_succ, if_pos hb0], hr, rfl⟩
  | succ k ih =>
    intro fuel h ws hr hk hfuel
    cases fuel with
    | zero => omega
    | succ f =>
      have hne : ws ≠ [] := by intro hv; rw [hv] at hk; simp at hk
      obtain ⟨hane, _, _, hB, _, _, _⟩ := repH_facts hr hne
      have hb0 : posIt B addrs r ws.length 0 = ⟨addrs.head?, 0⟩ :=
        posIt_begin _ _ _ (by omega) hane
      have hneqb : posIt B addrs r ws.length (k + 1) ≠ ⟨addrs.head?, 0⟩ := by
        rw [← hb0]
        intro hcon
        have := posIt_inj hr (by omega) (by omega) hcon
        omega
      have hdec : decIt B h (posIt B addrs r ws.length (k + 1)) =
          posIt B addrs r ws.length k := by
        have hd := posIt_dec hr (show 1 ≤ k + 1 by omega) (by omega)
        exact hd
      have hpv : derefIt h (decIt B h (posIt B addrs r ws.length (k + 1))) =
          some (ws.getD k default) := by
        rw [hdec]
        exact posIt_deref hr (by omega)
      have hjv : derefIt h (posIt B addrs r ws.length (k + 1)) =
          some (ws.getD (k + 1) default) :=
        posIt_deref hr hk
      cases hgt : gt (ws.getD k default) (ws.getD (k + 1) default) with
      | false =>
        refine ⟨h, innerLoop_noswap hneqb hpv hjv hgt, ?_, rfl⟩
        rw [insStep, if_neg (by simp only [hgt]; simp)]
        exact hr
      | true =>
        obtain ⟨h1, hw1, hrep1, hl1⟩ := posIt_write hr hk (ws.getD k default)
        have hlset1 : (ws.set (k + 1) (ws.getD k default)).length
            = ws.length := List.length_set ws _ _
        have hrep1' : RepH B h1 addrs r
            (ws.set (k + 1) (ws.getD k default)) := hrep1
        have hdec1 : decIt B h1 (posIt B addrs r ws.length (k + 1)) =
            posIt B addrs r ws.length k := by
          have hd := posIt_dec hrep1' (show 1 ≤ k + 1 by omega)
            (by rw [hlset1]; omega)
          rw [hlset1] at hd
          exact hd
        obtain ⟨h2, hw2, hrep2, hl2⟩ := posIt_write hrep1'
          (show k < (ws.set (k + 1) (ws.getD k default)).length by
            rw [hlset1]; omega) (ws.getD (k + 1) default)
        rw [hlset1] at hw2
        rw [← hdec1] at hw2
        have hrep2' : RepH B h2 addrs r (swapAdj ws k) := by
          rw [swapAdj]
          exact hrep2
        have hdec2 : decIt B h2 (posIt B addrs r ws.length (k + 1)) =
            posIt B addrs r ws.length k := by
          have hswlen : (swapAdj ws k).length = ws.length := swapAdj_length ws k
          have hd := posIt_dec hrep2' (show 1 ≤ k + 1 by omega)
            (by rw [hswlen]; omega)
          rw [hswlen] at hd
          exact hd
        obtain ⟨h', hrec, hrep', hl'⟩ := ih f h2 (swapAdj ws k) hrep2'
          (by rw [swapAdj_length]; omega) (by omega)
        rw [swapAdj_length] at hrec
        refine ⟨h', ?_, ?_, by omega⟩
        · rw [innerLoop_swap hneqb hpv hjv hgt hw1 hw2, hdec2]
          exact hrec
        · rw [insStep, if_pos (by simp only [hgt])]
          exact hrep'

theorem outerLoop_sim [DecidableEq T] {B : Nat} {addrs : List Nat} {r : Nat}
    (gt : T → T → Bool) :
    ∀ (steps k fuel : Nat) (h : List (Bucket T)) (ws : List T),
      RepH B h addrs r ws → 1 ≤ k → k + steps = ws.length → steps < fuel →
      ∃ h', outerLoop B gt addrs.head? ⟨addrs.getLast?, (r : Int)⟩ fuel h
          (posIt B addrs r ws.length k) = some h' ∧
        RepH B h' addrs r (isortIdxGo gt steps k ws) ∧
        h'.length = h.length := by
  intro steps
  induction steps with
  | zero =>
    intro k fuel h ws hr hk1 hkn hfuel
    cases fuel with
    | zero => omega
    | succ f =>
      have hkeq : k = ws.length := by omega
      subst hkeq
      refine ⟨h, ?_, hr, rfl⟩
      rw [outerLoop_succ, if_pos (@posIt_end B addrs r ws.length)]
  | succ steps ih =>
    intro k fuel h ws hr hk1 hkn hfuel
    cases fuel with
    | zero => omega
    | succ f =>
      have hklt : k < ws.length := by omega
      have hne : ws ≠ [] := by intro hv; rw [hv] at hklt; simp at hklt
      obtain ⟨hane, hr1, hrB, hB, hm1, hn, hnm⟩ := repH_facts hr hne
      have hheap : addrs.length ≤ h.length :=
        chain_length_le hr.1.incr hr.1.bound
      have hkfuel : k < h.length * B + 1 := by
        have h1 : addrs.length * B ≤ h.length * B :=
          Nat.mul_le_mul_right B hheap
        omega
      have hneqe : posIt B addrs r ws.length k ≠
          ⟨addrs.getLast?, (r : Int)⟩ := by
        rw [← @posIt_end B addrs r ws.length]
        intro hcon
        have := posIt_inj hr (by omega) (by omega) hcon
        omega
      obtain ⟨h1, hinner, hrep1, hl1⟩ :=
        innerLoop_sim gt k (h.length * B + 1) h ws hr hklt hkfuel
      have hinslen : (insStep gt k ws).length = ws.length :=
        insStep_length gt k ws
      have hinc : incIt B h1 (posIt B addrs r ws.length k) =
          posIt B addrs r ws.length (k + 1) := by
        have := posIt_inc hrep1
          (show k < (insStep gt k ws).length by rw [hinslen]; omega)
        rw [hinslen] at this
        exact this
      obtain ⟨h', houter, hrep', hl'⟩ := ih (k + 1) f h1 (insStep gt k ws)
        hrep1 (by omega) (by rw [hinslen]; omega) (by omega)
      rw [hinslen] at houter
      refine ⟨h', ?_, hrep', by omega⟩
      rw [outerLoop_step hneqe hinner, hinc]
      exact houter

theorem sortRun_rep [DecidableEq T] {B : Nat} (gt : T → T → Bool)
    {s : SliceArray T} {addrs : List Nat} {vs : List T}
    (hrep : Rep B s addrs vs) :
    ∃ s', sortRun B gt s = some s' ∧ Rep B s' addrs (isortL gt vs) := by
  obtain ⟨hr, hfirst, hlast, halloc, hlock⟩ := hrep
  have hdef : sortRun B gt s =
      if s.fFirstBucket = none then some s
      else
        match outerLoop B gt s.fFirstBucket (endIt s)
            (s.heap.length * B + 1) s.heap
            (incIt B s.heap (beginIt s)) with
        | none => none
        | some h => some { s with heap := h } := rfl
  by_cases hvs : vs = []
  · subst hvs
    obtain ⟨haddr, hrz⟩ := repH_empty hr
    subst haddr
    simp only [List.head?] at hfirst
    refine ⟨s, ?_, hr, hfirst, hlast, halloc, hlock⟩
    rw [hdef, if_pos hfirst]
  · obtain ⟨hane, hr1, hrB, hB, hm1, hn, hnm⟩ := repH_facts hr hvs
    have hnpos : 0 < vs.length := List.length_pos.2 hvs
    have hfne : s.fFirstBucket ≠ none := by
      rw [hfirst, head?_eq_getD hane]
      simp
    have hheap : addrs.length ≤ s.heap.length :=
      chain_length_le hr.1.incr hr.1.bound
    have hfuel : vs.length - 1 < s.heap.length * B + 1 := by
      have h1 : addrs.length * B ≤ s.heap.length * B :=
        Nat.mul_le_mul_right B hheap
      omega
    obtain ⟨h', houter, hrep', hl'⟩ := outerLoop_sim gt (vs.length - 1) 1
      (s.heap.length * B + 1) s.heap vs hr (Nat.le_refl 1) (by omega) hfuel
    have hbegin : beginIt s =
        posIt B addrs s.fNextBucketIndex vs.length 0 := by
      rw [posIt_begin _ _ _ hnpos hane, beginIt, hfirst]
    have hinc : incIt B s.heap (beginIt s) =
        posIt B addrs s.fNextBucketIndex vs.length 1 := by
      rw [hbegin]
      exact posIt_inc hr hnpos
    have hend : endIt s =
        (⟨addrs.getLast?, (s.fNextBucketIndex : Int)⟩ : SAIterator) := by
      rw [endIt, hlast]
    have houter' : outerLoop B gt s.fFirstBucket (endIt s)
        (s.heap.length * B + 1) s.heap (incIt B s.heap (beginIt s)) =
        some h' := by
      rw [hfirst, hend, hinc]
      exact houter
    have hsort : isortIdxGo gt (vs.length - 1) 1 vs = isortL gt vs := by
      cases vs with
      | nil => exact absurd rfl hvs
      | cons a rest =>
        have : (a :: rest).length - 1 = rest.length := by simp
        rw [this]
        exact isortIdxGo_eq_isortL gt a rest
    refine ⟨{ s with heap := h' }, ?_, ?_, hfirst, hlast, halloc, hlock⟩
    · rw [hdef, if_neg hfne, houter']
    · rw [← hsort]
      exact hrep'

theorem rep_empty_init [DecidableEq T] {B : Nat} :
    Rep B (setAllocator (emptySA : SliceArray T)) [] [] := by
  refine ⟨⟨⟨?_, ?_, ?_, ?_, Or.inl rfl, ?_⟩, Or.inl ⟨rfl, rfl, rfl⟩⟩,
    rfl, rfl, rfl, rfl⟩ <;> simp

theorem rep_after_reset [DecidableEq T] {B : Nat} {s : SliceArray T}
    (halloc : s.fAllocator = true) (hlock : s.fLock = false) :
    Rep B (reset s) [] [] := by
  refine ⟨⟨⟨?_, ?_, ?_, ?_, Or.inl rfl, ?_⟩, Or.inl ⟨rfl, rfl, rfl⟩⟩,
    rfl, rfl, halloc, hlock⟩ <;> simp

theorem appendAll_rep [DecidableEq T] {B : Nat} (hB : 1 ≤ B) :
    ∀ (ws : List T) {s : SliceArray T} {addrs : List Nat} {vs : List T},
      Rep B s addrs vs →
      ∃ addrs' s', appendAll B s ws = some s' ∧
        Rep B s' addrs' (vs ++ ws) := by
  intro ws
  induction ws with
  | nil =>
    intro s addrs vs hrep
    exact ⟨addrs, s, rfl, by simpa using hrep⟩
  | cons w ws ih =>
    intro s addrs vs hrep
    obtain ⟨addrs1, s1, happ, hrep1⟩ := append_rep hB hrep w
    obtain ⟨addrs', s', hall, hrep'⟩ := ih hrep1
    refine ⟨addrs', s', ?_, by simpa using hrep'⟩
    rw [appendAll, happ]
    exact hall

/-! ### The structural invariant (claim C5) -/

theorem structWF_of_chain {B : Nat} {s : SliceArray T} {addrs : List Nat}
    (hidx : s.fNextBucketIndex ≤ B) (hc : ChainOK B s.heap addrs)
    (hfirst : s.fFirstBucket = addrs.head?)
    (hlast : s.fLastBucket = addrs.getLast?) : StructWF B s :=
  ⟨hidx, addrs, hc, hfirst, hlast⟩

theorem structWF_allocate {B : Nat} {s s' : SliceArray T}
    (hwf : StructWF B s) (hrun : allocateBucketRun B s = some s') :
    StructWF B s' := by
  obtain ⟨hidx, addrs, hc, hfirst, hlast⟩ := hwf
  have hlock : s.fLock = false := by
    cases hfl : s.fLock
    · rfl
    · rw [allocateBucketRun, if_pos (by rw [hfl])] at hrun
      exact Option.noConfusion hrun
  by_cases hcond : s.fNextBucketIndex = B ∨ s.fLastBucket = none
  · -- growth actually happens
    have halloc : s.fAllocator = true := by
      cases hfa : s.fAllocator
      · rw [allocateBucketRun, if_neg (by rw [hlock]; simp),
          if_pos hcond, if_pos hfa] at hrun
        exact Option.noConfusion hrun
      · rfl
    by_cases hane : addrs = []
    · subst hane
      have hlast' : s.fLastBucket = none := by rw [hlast]; rfl
      rw [allocate_empty hlock halloc hlast'] at hrun
      injection hrun with hrun'
      subst hrun'
      exact ⟨Nat.zero_le B, [s.heap.length], chainOK_singleton s.heap,
        rfl, rfl⟩
    · have hlast' : s.fLastBucket =
          some (addrs.getD (addrs.length - 1) 0) := by
        rw [hlast, getLast?_eq_getD hane]
      rcases hcond with hfull | hnone
      · have hm1 : 1 ≤ addrs.length := by
          cases addrs with
          | nil => exact absurd rfl hane
          | cons x rest => simp
        have hmem : addrs.getD (addrs.length - 1) 0 ∈ addrs :=
          chain_addr_getD_mem addrs (by omega)
        have hlb : addrs.getD (addrs.length - 1) 0 < s.heap.length :=
          hc.bound _ hmem
        rw [allocate_full hlock halloc hlast' hfull hlb] at hrun
        injection hrun with hrun'
        subst hrun'
        obtain ⟨hc2, _, _⟩ := chainOK_grow hc hane rfl rfl rfl
        refine ⟨Nat.zero_le B, addrs ++ [s.heap.length], hc2, ?_, ?_⟩
        · have hh : (addrs ++ [s.heap.length]).head? = addrs.head? := by
            cases addrs with
            | nil => exact absurd rfl hane
            | cons x rest => simp
          rw [hh]
          exact hfirst
        · rw [List.getLast?_concat]
      · rw [hlast'] at hnone
        exact Option.noConfusion hnone
  · -- no-op branch: the lock is taken and released, nothing changes
    obtain ⟨lb, hlb⟩ : ∃ lb, s.fLastBucket = some lb := by
      cases hfl : s.fLastBucket
      · exact absurd (Or.inr hfl) hcond
      · exact ⟨_, rfl⟩
    have hnb : s.fNextBucketIndex ≠ B := fun hcon => hcond (Or.inl hcon)
    rw [allocate_noop hlock hnb hlb] at hrun
    injection hrun with hrun'
    subst hrun'
    exact ⟨hidx, addrs, hc, hfirst, hlast⟩

theorem chainOK_set_items {B : Nat} {h : List (Bucket T)} {addrs : List Nat}
    (hc : ChainOK B h addrs) {a : Nat} (ha : a < h.length)
    {items2 : List T}
    (hil : items2.length = (h.getD a default).items.length) :
    ChainOK B (h.set a { h.getD a default with items := items2 }) addrs := by
  set h2 := h.set a { h.getD a default with items := items2 } with hh2
  have hnp : ∀ x : Nat,
      (h2.getD x default).next = (h.getD x default).next ∧
      (h2.getD x default).prev = (h.getD x default).prev ∧
      (x ≠ a → (h2.getD x default).items = (h.getD x default).items) := by
    intro x
    by_cases hx : x = a
    · subst hx
      rw [hh2, getD_set_self _ _ _ ha]
      exact ⟨rfl, rfl, fun hcon => absurd rfl hcon⟩
    · rw [hh2, getD_set_ne _ _ _ (fun hcon => hx hcon.symm)]
      exact ⟨rfl, rfl, fun _ => rfl⟩
  obtain ⟨hbound, hincr, hnext, hprev, hlastn, hitl⟩ := hc
  refine ⟨?_, hincr, ?_, ?_, ?_, ?_⟩
  · intro x hx; rw [hh2, List.length_set]; exact hbound x hx
  · exact hnext.imp (fun {x y} hxy => by rw [(hnp x).1]; exact hxy)
  · exact hprev.imp (fun {x y} hxy => by rw [(hnp y).2.1]; exact hxy)
  · rcases hlastn with hempty | hlastn
    · exact Or.inl hempty
    · exact Or.inr (by rw [(hnp _).1]; exact hlastn)
  · intro x hx
    by_cases hxa : x = a
    · subst hxa
      have hIa : itemsOf h2 x = items2 := by
        rw [itemsOf, hh2, getD_set_self _ _ _ ha]
      rw [hIa, hil]
      exact hitl x hx
    · rw [itemsOf, (hnp x).2.2 hxa]
      exact hitl x hx

theorem writeSlot_inv {s s' : SliceArray T} {bucket : Option Nat}
    {index : Nat} {v : T}
    (hw : writeSlot s bucket index v = some s') :
    ∃ a b, bucket = some a ∧ s.heap.get? a = some b ∧
      index < b.items.length ∧
      s' = { s with
        heap := s.heap.set a { b with items := b.items.set index v } } := by
  cases bucket with
  | none => exact Option.noConfusion hw
  | some a =>
    simp only [writeSlot] at hw
    split at hw
    · exact Option.noConfusion hw
    · next b heq =>
        split at hw
        · next hi =>
            injection hw with hw2
            exact ⟨a, b, rfl, heq, hi, hw2.symm⟩
        · exact Option.noConfusion hw

theorem structWF_appendLoop {B : Nat} {v : T} :
    ∀ (fuel : Nat) {s s' : SliceArray T}, StructWF B s →
      appendLoop B v fuel s = some s' → StructWF B s' := by
  intro fuel
  induction fuel with
  | zero => intro s s' _ hrun; exact Option.noConfusion hrun
  | succ f ih =>
    intro s s' hwf hrun
    by_cases hcond : s.fNextBucketIndex = B ∨ s.fLastBucket = none
    · cases halloc : allocateBucketRun B s with
      | none =>
        rw [appendLoop_succ, if_pos hcond, halloc] at hrun
        exact Option.noConfusion hrun
      | some s1 =>
        rw [appendLoop_grow hcond halloc] at hrun
        exact ih (structWF_allocate hwf halloc) hrun
    · rw [appendLoop_write hcond] at hrun
      obtain ⟨hidx, addrs, hc, hfirst, hlast⟩ := hwf
      have hnb : s.fNextBucketIndex ≠ B := fun hcon => hcond (Or.inl hcon)
      obtain ⟨a, b, hb, hga0, hlt, hs'⟩ := writeSlot_inv hrun
      have hga : s.heap.get? a = some b := hga0
      have ha : a < s.heap.length := by
        by_contra hcon
        rw [List.get?_eq_getElem?, List.getElem?_eq_none (by omega)] at hga
        exact Option.noConfusion hga
      have hbd : s.heap.getD a default = b := by
        rw [List.getD_eq_getElem?_getD, ← List.get?_eq_getElem?, hga]
        rfl
      subst hs'
      refine ⟨?_, addrs, ?_, hfirst, hlast⟩
      · show s.fNextBucketIndex + 1 ≤ B
        omega
      · show ChainOK B
          (s.heap.set a
            { b with items := b.items.set s.fNextBucketIndex v }) addrs
        rw [← hbd]
        exact chainOK_set_items hc ha
          (by rw [hbd, List.length_set])

theorem structWF_reachable {B : Nat} {s : SliceArray T}
    (h : Reachable B s) : StructWF B s := by
  induction h with
  | init =>
    refine ⟨Nat.zero_le B, [], ⟨?_, ?_, ?_, ?_, Or.inl rfl, ?_⟩,
      rfl, rfl⟩ <;> simp
  | setAlloc _ ih =>
    obtain ⟨hidx, addrs, hc, hfirst, hlast⟩ := ih
    exact ⟨hidx, addrs, hc, hfirst, hlast⟩
  | app _ happ ih => exact structWF_appendLoop 2 ih happ
  | grow _ hg ih => exact structWF_allocate ih hg
  | reset _ _ =>
    refine ⟨Nat.zero_le B, [], ⟨?_, ?_, ?_, ?_, Or.inl rfl, ?_⟩,
      rfl, rfl⟩ <;> simp

end RepresentationLemmas

theorem sortRun_of_first_none {B : Nat} (gt : T → T → Bool)
    {s : SliceArray T} (h : s.fFirstBucket = none) :
    sortRun B gt s = some s := by
  have hdef : sortRun B gt s =
      if s.fFirstBucket = none then some s
      else
        match outerLoop B gt s.fFirstBucket (endIt s)
            (s.heap.length * B + 1) s.heap
            (incIt B s.heap (beginIt s)) with
        | none => none
        | some hp => some { s with heap := hp } := rfl
  rw [hdef, if_pos h]

theorem iterate_inc_pos [DecidableEq T] {B : Nat} {s : SliceArray T}
    {addrs : List Nat} {vs : List T} (hrep : Rep B s addrs vs)
    (hne : vs ≠ []) :
    ∀ k, k ≤ vs.length →
      (incIt B s.heap)^[k] (beginIt s) =
        posIt B addrs s.fNextBucketIndex vs.length k := by
  obtain ⟨hr, hfirst, hlast, h3, h4⟩ := hrep
  obtain ⟨hane, hr1, hrB, hB, hm1, hn, hnm⟩ := repH_facts hr hne
  have hnpos : 0 < vs.length := List.length_pos.2 hne
  intro k
  induction k with
  | zero =>
    intro _
    rw [Function.iterate_zero_apply, posIt_begin _ _ _ hnpos hane,
      beginIt, hfirst]
  | succ k ih =>
    intro hk
    rw [Function.iterate_succ_apply', ih (by omega)]
    exact posIt_inc hr (by omega)

/-! ### The claims -/

/-- C1: after appending values `v1..vN` in that order to a container that
starts empty and has its allocator set, iterating from `begin()` to `end()`
visits exactly `N` elements and yields `v1..vN` in append order, including
when `N` spans several chunks of capacity `BUCKET_SIZE`. -/
theorem C1_append_iterate_round_trip [DecidableEq T] {B : Nat} (hB : 1 ≤ B)
    (vs : List T) :
    ∃ s, appendAll B (setAllocator (emptySA : SliceArray T)) vs = some s ∧
      collect B s = some vs := by
  obtain ⟨addrs, s, hall, hrep⟩ := appendAll_rep hB vs rep_empty_init
  rw [List.nil_append] at hrep
  exact ⟨s, hall, collect_rep hrep⟩

/-- Witness for C1: five values across three chunks of capacity 2. -/
theorem C1_witness :
    (1 : Nat) ≤ 2 ∧
    (∃ s, appendAll 2 (setAllocator (emptySA : SliceArray Int))
        [3, 1, 2, 5, 4] = some s ∧ collect 2 s = some [3, 1, 2, 5, 4]) :=
  ⟨by decide, C1_append_iterate_round_trip (by decide) [3, 1, 2, 5, 4]⟩

/-- C2: on every container state reachable by single-threaded appends from a
fresh container, `sort()` succeeds and reorders the stored sequence into
ascending order for the element type's strict total order — the collected
result is a sorted permutation of the pre-sort sequence — and `sort()` on an
empty container returns the state unchanged. -/
theorem C2_sort_sorted_permutation [DecidableEq T] [LinearOrder T]
    {B : Nat} (hB : 1 ≤ B) {vs : List T} {s : SliceArray T}
    (happ : appendAll B (setAllocator (emptySA : SliceArray T)) vs = some s) :
    ∃ s' ws, sortRun B gtOf s = some s' ∧ collect B s' = some ws ∧
      ws.Perm vs ∧ List.Chain' (· ≤ ·) ws ∧
      (vs = [] → sortRun B gtOf s = some s) := by
  obtain ⟨addrs, s0, hall, hrep⟩ := appendAll_rep hB vs rep_empty_init
  rw [happ] at hall
  injection hall with heq
  subst heq
  rw [List.nil_append] at hrep
  obtain ⟨s', hsort, hrep'⟩ := sortRun_rep gtOf hrep
  have hasym : ∀ x y : T, gtOf x y = true → gtOf y x = false := by
    intro x y h
    simp only [gtOf, decide_eq_true_eq] at h
    simp only [gtOf, decide_eq_false_iff_not]
    exact lt_asymm h
  refine ⟨s', isortL gtOf vs, hsort, collect_rep hrep', isortL_perm _ _,
    ?_, ?_⟩
  · have hnd := isortL_noDesc hasym vs
    exact List.Chain'.imp
      (fun a b hab => le_of_not_lt (by simpa [gtOf] using hab)) hnd
  · intro hvs
    subst hvs
    apply sortRun_of_first_none
    obtain ⟨hr, hfirst, hl2, hl3, hl4⟩ := hrep
    obtain ⟨ha, hrz⟩ := repH_empty hr
    rw [hfirst, ha]
    rfl

/-- Witness for C2: sorting the state built by appending `[4,2,5,1,3]` with
chunk capacity 2. -/
theorem C2_witness :
    (1 : Nat) ≤ 2 ∧
    appendAll 2 (setAllocator (emptySA : SliceArray Int)) [4, 2, 5, 1, 3] =
      some ⟨[⟨some 1, none, [4, 2]⟩, ⟨some 2, some 0, [5, 1]⟩,
        ⟨none, some 1, [3, 0]⟩], some 0, some 2, 1, true, false⟩ ∧
    (∃ s' ws, sortRun 2 gtOf
        (⟨[⟨some 1, none, [4, 2]⟩, ⟨some 2, some 0, [5, 1]⟩,
            ⟨none, some 1, [3, 0]⟩], some 0, some 2, 1, true, false⟩ :
          SliceArray Int) = some s' ∧
      collect 2 s' = some ws ∧ ws.Perm [4, 2, 5, 1, 3] ∧
      List.Chain' (· ≤ ·) ws ∧
      (([4, 2, 5, 1, 3] : List Int) = [] →
        sortRun 2 gtOf
          (⟨[⟨some 1, none, [4, 2]⟩, ⟨some 2, some 0, [5, 1]⟩,
              ⟨none, some 1, [3, 0]⟩], some 0, some 2, 1, true, false⟩ :
            SliceArray Int) =
          some ⟨[⟨some 1, none, [4, 2]⟩, ⟨some 2, some 0, [5, 1]⟩,
              ⟨none, some 1, [3, 0]⟩], some 0, some 2, 1, true, false⟩)) :=
  ⟨by decide, by decide, C2_sort_sorted_permutation (by decide) (by decide)⟩

/-- C3: the concurrent-append uniqueness property fails on the code.
`raceResult` is a legal sequentially consistent interleaving of three
`append` calls (values 10, 30, 20) on a `SliceArray<int, 1>`, with every
primitive action in its thread's program order; the final collected sequence
is `[30, 0, 20]`: thread A's stale compare-and-swap succeeds after the slot
counter was recycled by a growth (ABA), so the slot already written by the
first append is overwritten — value 10 appears zero times instead of exactly
once, and garbage (0) sits at index 1. -/
theorem C3_race_lost_update :
    raceResult = some [30, 0, 20] ∧ (10 : Int) ∉ ([30, 0, 20] : List Int) :=
  ⟨by decide, by decide⟩

/-- C4: `allocateBucket`, run in isolation with the growth lock free: when
the current chunk is full (`fNextBucketIndex = BUCKET_SIZE`) or absent, it
allocates exactly one new chunk, links it after the existing tail through
`prev`/`next` (or, on an empty chain, makes it both first and last chunk),
publishes it as `fLastBucket` and resets `fNextBucketIndex` to 0; when the
chunk is neither full nor absent it returns with the state unchanged and
allocates nothing. -/
theorem C4_allocate_bucket {B : Nat} (s : SliceArray T) (lb : Nat)
    (hlock : s.fLock = false) :
    ((s.fNextBucketIndex = B ∨ s.fLastBucket = none) →
      s.fAllocator = true →
      ((s.fLastBucket = some lb → lb < s.heap.length →
        ∃ s', allocateBucketRun B s = some s' ∧
          s'.heap.length = s.heap.length + 1 ∧
          (s'.heap.getD lb default).next = some s.heap.length ∧
          (s'.heap.getD s.heap.length default).prev = some lb ∧
          (s'.heap.getD s.heap.length default).next = none ∧
          s'.fLastBucket = some s.heap.length ∧
          s'.fFirstBucket = s.fFirstBucket ∧
          s'.fNextBucketIndex = 0) ∧
      (s.fLastBucket = none →
        ∃ s', allocateBucketRun B s = some s' ∧
          s'.heap = s.heap ++ [⟨none, none, List.replicate B default⟩] ∧
          s'.fFirstBucket = some s.heap.length ∧
          s'.fLastBucket = some s.heap.length ∧
          s'.fNextBucketIndex = 0))) ∧
    (¬(s.fNextBucketIndex = B ∨ s.fLastBucket = none) →
      allocateBucketRun B s = some s) := by
  constructor
  · intro hcond halloc
    constructor
    · intro hlast hlb
      have hfull : s.fNextBucketIndex = B := by
        rcases hcond with h | h
        · exact h
        · rw [hlast] at h; exact Option.noConfusion h
      have hlb1 : lb < (s.heap ++
          [(⟨none, some lb, List.replicate B default⟩ : Bucket T)]).length := by
        rw [List.length_append, List.length_singleton]; omega
      refine ⟨_, allocate_full hlock halloc hlast hfull hlb, ?_, ?_, ?_,
        ?_, rfl, rfl, rfl⟩
      · show ((s.heap ++
            [(⟨none, some lb, List.replicate B default⟩ : Bucket T)]).set lb
            { (s.heap ++ [(⟨none, some lb, List.replicate B default⟩ :
                Bucket T)]).getD lb default with
              next := some s.heap.length }).length = s.heap.length + 1
        rw [List.length_set, List.length_append, List.length_singleton]
      · show (((s.heap ++
            [(⟨none, some lb, List.replicate B default⟩ : Bucket T)]).set lb
            { (s.heap ++ [(⟨none, some lb, List.replicate B default⟩ :
                Bucket T)]).getD lb default with
              next := some s.heap.length }).getD lb default).next =
          some s.heap.length
        rw [getD_set_self _ _ _ hlb1]
      · show (((s.heap ++
            [(⟨none, some lb, List.replicate B default⟩ : Bucket T)]).set lb
            { (s.heap ++ [(⟨none, some lb, List.replicate B default⟩ :
                Bucket T)]).getD lb default with
              next := some s.heap.length }).getD s.heap.length
            default).prev = some lb
        rw [getD_set_ne _ _ _ (Nat.ne_of_lt hlb), getD_concat_self]
      · show (((s.heap ++
            [(⟨none, some lb, List.replicate B default⟩ : Bucket T)]).set lb
            { (s.heap ++ [(⟨none, some lb, List.replicate B default⟩ :
                Bucket T)]).getD lb default with
              next := some s.heap.length }).getD s.heap.length
            default).next = none
        rw [getD_set_ne _ _ _ (Nat.ne_of_lt hlb), getD_concat_self]
    · intro hlast
      exact ⟨_, allocate_empty hlock halloc hlast, rfl, rfl, rfl, rfl⟩
  · intro hcond
    obtain ⟨lb', hlb'⟩ : ∃ x, s.fLastBucket = some x := by
      cases hfl : s.fLastBucket
      · exact absurd (Or.inr hfl) hcond
      · exact ⟨_, rfl⟩
    exact allocate_noop hlock (fun hcon => hcond (Or.inl hcon)) hlb'

/-- Witness for C4: a full one-chunk container with chunk capacity 2. -/
theorem C4_witness :
    (⟨[⟨none, none, [5, 7]⟩], some 0, some 0, 2, true,
        false⟩ : SliceArray Int).fLock = false ∧
    ((((2 : Nat) = 2 ∨ (some 0 : Option Nat) = none) → true = true →
      (((some 0 : Option Nat) = some 0 → 0 < 1 →
        ∃ s', allocateBucketRun 2 (⟨[⟨none, none, [5, 7]⟩], some 0, some 0,
            2, true, false⟩ : SliceArray Int) = some s' ∧
          s'.heap.length = 2 ∧
          (s'.heap.getD 0 default).next = some 1 ∧
          (s'.heap.getD 1 default).prev = some 0 ∧
          (s'.heap.getD 1 default).next = none ∧
          s'.fLastBucket = some 1 ∧
          s'.fFirstBucket = some 0 ∧
          s'.fNextBucketIndex = 0) ∧
      ((some 0 : Option Nat) = none →
        ∃ s', allocateBucketRun 2 (⟨[⟨none, none, [5, 7]⟩], some 0, some 0,
            2, true, false⟩ : SliceArray Int) = some s' ∧
          s'.heap = [⟨none, none, [5, 7]⟩] ++
            [⟨none, none, List.replicate 2 default⟩] ∧
          s'.fFirstBucket = some 1 ∧
          s'.fLastBucket = some 1 ∧
          s'.fNextBucketIndex = 0))) ∧
    (¬((2 : Nat) = 2 ∨ (some 0 : Option Nat) = none) →
      allocateBucketRun 2 (⟨[⟨none, none, [5, 7]⟩], some 0, some 0, 2, true,
        false⟩ : SliceArray Int) =
        some ⟨[⟨none, none, [5, 7]⟩], some 0, some 0, 2, true, false⟩)) :=
  ⟨by decide, C4_allocate_bucket
    (⟨[⟨none, none, [5, 7]⟩], some 0, some 0, 2, true, false⟩ :
      SliceArray Int) 0 (by decide)⟩

/-- C5: in every state reachable from a fresh container by allocator setup,
appends, growths and resets, `fNextBucketIndex` lies in `[0, BUCKET_SIZE]`,
and `fFirstBucket`/`fLastBucket` are the head and tail of one well-formed
chunk chain — in particular both are absent exactly when the chain is
empty. -/
theorem C5_structural_invariant {B : Nat} {s : SliceArray T}
    (h : Reachable B s) :
    s.fNextBucketIndex ≤ B ∧
    (s.fFirstBucket = none ↔ s.fLastBucket = none) ∧
    ∃ addrs, ChainOK B s.heap addrs ∧
      s.fFirstBucket = addrs.head? ∧ s.fLastBucket = addrs.getLast? := by
  obtain ⟨hidx, addrs, hc, hf, hl⟩ := structWF_reachable h
  refine ⟨hidx, ?_, addrs, hc, hf, hl⟩
  rw [hf, hl]
  cases addrs with
  | nil => simp
  | cons a rest => simp

/-- Witness for C5: the freshly constructed container is reachable. -/
theorem C5_witness :
    Reachable 2 (emptySA : SliceArray Int) ∧
    ((emptySA : SliceArray Int).fNextBucketIndex ≤ 2 ∧
    ((emptySA : SliceArray Int).fFirstBucket = none ↔
      (emptySA : SliceArray Int).fLastBucket = none) ∧
    ∃ addrs, ChainOK 2 (emptySA : SliceArray Int).heap addrs ∧
      (emptySA : SliceArray Int).fFirstBucket = addrs.head? ∧
      (emptySA : SliceArray Int).fLastBucket = addrs.getLast?) :=
  ⟨Reachable.init, C5_structural_invariant Reachable.init⟩

/-- C6: after `reset()`, `fFirstBucket` and `fLastBucket` are null and
`fNextBucketIndex` is 0, so `begin() == end()`; the heap is untouched (no
chunk memory is released); and a subsequent `append` places its value at
logical index 0 — the collected sequence is exactly `[v]`. -/
theorem C6_reset {B : Nat} {s : SliceArray T} [DecidableEq T]
    (hB : 1 ≤ B) (halloc : s.fAllocator = true) (hlock : s.fLock = false)
    (v : T) :
    (reset s).fFirstBucket = none ∧ (reset s).fLastBucket = none ∧
    (reset s).fNextBucketIndex = 0 ∧
    beginIt (reset s) = endIt (reset s) ∧
    (reset s).heap = s.heap ∧
    ∃ s', append B (reset s) v = some s' ∧ collect B s' = some [v] := by
  have hrep : Rep B (reset s) [] [] := rep_after_reset halloc hlock
  refine ⟨rfl, rfl, rfl, rfl, rfl, ?_⟩
  obtain ⟨addrs', s', happ, hrep'⟩ := append_rep hB hrep v
  rw [List.nil_append] at hrep'
  exact ⟨s', happ, collect_rep hrep'⟩

/-- Witness for C6: resetting a one-chunk container and appending 42. -/
theorem C6_witness :
    (1 : Nat) ≤ 2 ∧
    (⟨[⟨none, none, [9, 8]⟩], some 0, some 0, 2, true,
        false⟩ : SliceArray Int).fAllocator = true ∧
    (⟨[⟨none, none, [9, 8]⟩], some 0, some 0, 2, true,
        false⟩ : SliceArray Int).fLock = false ∧
    ((reset (⟨[⟨none, none, [9, 8]⟩], some 0, some 0, 2, true,
        false⟩ : SliceArray Int)).fFirstBucket = none ∧
    (reset (⟨[⟨none, none, [9, 8]⟩], some 0, some 0, 2, true,
        false⟩ : SliceArray Int)).fLastBucket = none ∧
    (reset (⟨[⟨none, none, [9, 8]⟩], some 0, some 0, 2, true,
        false⟩ : SliceArray Int)).fNextBucketIndex = 0 ∧
    beginIt (reset (⟨[⟨none, none, [9, 8]⟩], some 0, some 0, 2, true,
        false⟩ : SliceArray Int)) =
      endIt (reset (⟨[⟨none, none, [9, 8]⟩], some 0, some 0, 2, true,
        false⟩ : SliceArray Int)) ∧
    (reset (⟨[⟨none, none, [9, 8]⟩], some 0, some 0, 2, true,
        false⟩ : SliceArray Int)).heap = [⟨none, none, [9, 8]⟩] ∧
    ∃ s', append 2 (reset (⟨[⟨none, none, [9, 8]⟩], some 0, some 0, 2, true,
        false⟩ : SliceArray Int)) 42 = some s' ∧
      collect 2 s' = some [42]) :=
  ⟨by decide, by decide, by decide,
    C6_reset (by decide) (by decide) (by decide) 42⟩

/-- C7: iterator increment moves to the next chunk (offset 0) only when the
offset reaches `BUCKET_SIZE` and a next chunk exists; so on a container
whose last chunk is exactly full, incrementing an iterator through all
elements from `begin()` lands exactly on the captured `end()` instead of
overshooting into a non-existent chunk. -/
theorem C7_increment_no_overshoot [DecidableEq T] {B : Nat}
    {s : SliceArray T} (addrs : List Nat) {vs : List T}
    (hrep : Rep B s addrs vs) (hfull : s.fNextBucketIndex = B) :
    (incIt B s.heap)^[vs.length] (beginIt s) = endIt s := by
  by_cases hvs : vs = []
  · subst hvs
    obtain ⟨hr, hfirst, hlast, h3, h4⟩ := hrep
    obtain ⟨ha, hrz⟩ := repH_empty hr
    subst ha
    simp only [List.length_nil, Function.iterate_zero_apply]
    rw [beginIt, endIt, hfirst, hlast, hrz]
    decide
  · have hend := iterate_inc_pos hrep hvs vs.length (Nat.le_refl _)
    rw [hend, posIt_end]
    obtain ⟨hr, hfirst, hlast, h3, h4⟩ := hrep
    rw [endIt, hlast]

/-- Witness for C7: a container with one exactly-full chunk of capacity 2. -/
theorem C7_witness :
    Rep 2 (⟨[⟨none, none, [5, 7]⟩], some 0, some 0, 2, true,
        false⟩ : SliceArray Int) [0] [5, 7] ∧
    (⟨[⟨none, none, [5, 7]⟩], some 0, some 0, 2, true,
        false⟩ : SliceArray Int).fNextBucketIndex = 2 ∧
    (incIt 2 (⟨[⟨none, none, [5, 7]⟩], some 0, some 0, 2, true,
        false⟩ : SliceArray Int).heap)^[([(5 : Int), 7]).length]
      (beginIt (⟨[⟨none, none, [5, 7]⟩], some 0, some 0, 2, true,
        false⟩ : SliceArray Int)) =
      endIt (⟨[⟨none, none, [5, 7]⟩], some 0, some 0, 2, true,
        false⟩ : SliceArray Int) :=
  ⟨by decide, by decide,
    C7_increment_no_overshoot [0] (by decide) (by decide)⟩

/-- C8: `sort()` is stable: on any represented container state, for every
reference element `c` the subsequence of stored elements comparing equal to
`c` under the strict order (neither greater than the other) is unchanged by
the sort, for any comparison whose negation is transitive. -/
theorem C8_sort_stable [DecidableEq T] {B : Nat} {s : SliceArray T}
    (gt : T → T → Bool) (addrs : List Nat) {vs : List T}
    (hneg : ∀ x y z, gt x y = false → gt y z = false → gt x z = false)
    (hrep : Rep B s addrs vs) :
    ∃ s' ws, sortRun B gt s = some s' ∧ collect B s' = some ws ∧
      ws.Perm vs ∧
      ∀ c, ws.filter (eqvb gt c) = vs.filter (eqvb gt c) := by
  obtain ⟨s', hsort, hrep'⟩ := sortRun_rep gt hrep
  exact ⟨s', isortL gt vs, hsort, collect_rep hrep', isortL_perm gt vs,
    fun c => isortL_filter hneg c vs⟩

/-- Witness for C8: two elements with equal keys modulo 10 (21 and 11) keep
their input order through the sort. -/
theorem C8_witness :
    (∀ x y z : Int, (fun a b : Int => decide (b % 10 < a % 10)) x y = false →
      (fun a b : Int => decide (b % 10 < a % 10)) y z = false →
      (fun a b : Int => decide (b % 10 < a % 10)) x z = false) ∧
    Rep 2 (⟨[⟨none, none, [21, 11]⟩], some 0, some 0, 2, true,
        false⟩ : SliceArray Int) [0] [21, 11] ∧
    (∃ s' ws, sortRun 2 (fun a b : Int => decide (b % 10 < a % 10))
        (⟨[⟨none, none, [21, 11]⟩], some 0, some 0, 2, true,
          false⟩ : SliceArray Int) = some s' ∧
      collect 2 s' = some ws ∧ ws.Perm [21, 11] ∧
      ∀ c, ws.filter (eqvb (fun a b : Int => decide (b % 10 < a % 10)) c) =
        ([21, 11] : List Int).filter
          (eqvb (fun a b : Int => decide (b % 10 < a % 10)) c)) :=
  ⟨fun x y z hxy hyz => by
      simp only [decide_eq_false_iff_not, not_lt] at hxy hyz ⊢
      omega,
    by decide,
    C8_sort_stable (fun a b : Int => decide (b % 10 < a % 10)) [0]
      (fun x y z hxy hyz => by
        simp only [decide_eq_false_iff_not, not_lt] at hxy hyz ⊢
        omega)
      (by decide)⟩

/-- C9 (counterexample): `compareElements` does not distinguish the equal
case — it returns -1 both when the elements are equal and when the first is
less, never 0 — so it is not a three-way comparison. -/
theorem C9_compare_counterexample :
    compareElements (1 : Int) 1 = -1 ∧ compareElements (1 : Int) 2 = -1 ∧
    compareElements (1 : Int) 1 ≠ 0 :=
  ⟨by decide, by decide, by decide⟩

/-- C9 (amended): `compareElements` returns 1 exactly when the first element
is greater and -1 otherwise (the equal and less cases both yield -1); it
never returns 0. -/
theorem C9_compare_two_way {U : Type} [LinearOrder U] (a b : U) :
    (compareElements a b = 1 ↔ b < a) ∧
    (compareElements a b = -1 ↔ a ≤ b) ∧
    compareElements a b ≠ 0 := by
  unfold compareElements
  split_ifs with hgt
  · simp only [gt_iff_lt] at hgt
    refine ⟨⟨fun _ => hgt, fun _ => rfl⟩, ⟨fun hcon => ?_, fun hle => ?_⟩, by decide⟩
    · exact absurd hcon (by decide)
    · exact absurd hle (not_le.2 hgt)
  · simp only [gt_iff_lt, not_lt] at hgt
    refine ⟨⟨fun hcon => ?_, fun hlt => ?_⟩, ⟨fun _ => hgt, fun _ => rfl⟩, by decide⟩
    · exact absurd hcon (by decide)
    · exact absurd hlt (not_lt.2 hgt)

/-- C10: on any represented container state, `sort()` completes without the
guarded embedding ever reaching an error branch (every dereference and write
is in range, `*j.prev()` only evaluated when `j` is past `begin()`); on an
empty container it short-circuits and returns the state unchanged. -/
theorem C10_sort_safe [DecidableEq T] {B : Nat} {s : SliceArray T}
    (gt : T → T → Bool) (addrs : List Nat) (vs : List T)
    (hrep : Rep B s addrs vs) :
    (∃ s', sortRun B gt s = some s') ∧
    (s.fFirstBucket = none → sortRun B gt s = some s) := by
  obtain ⟨s', hsort, hrep'⟩ := sortRun_rep gt hrep
  exact ⟨⟨s', hsort⟩, fun hnone => sortRun_of_first_none gt hnone⟩

/-- Witness for C10: sorting a two-chunk container holding `[3,1,2]`. -/
theorem C10_witness :
    Rep 2 (⟨[⟨some 1, none, [3, 1]⟩, ⟨none, some 0, [2, 0]⟩], some 0, some 1,
        1, true, false⟩ : SliceArray Int) [0, 1] [3, 1, 2] ∧
    ((∃ s', sortRun 2 gtOf
        (⟨[⟨some 1, none, [3, 1]⟩, ⟨none, some 0, [2, 0]⟩], some 0, some 1,
          1, true, false⟩ : SliceArray Int) = some s') ∧
    ((⟨[⟨some 1, none, [3, 1]⟩, ⟨none, some 0, [2, 0]⟩], some 0, some 1,
        1, true, false⟩ : SliceArray Int).fFirstBucket = none →
      sortRun 2 gtOf
        (⟨[⟨some 1, none, [3, 1]⟩, ⟨none, some 0, [2, 0]⟩], some 0, some 1,
          1, true, false⟩ : SliceArray Int) =
        some ⟨[⟨some 1, none, [3, 1]⟩, ⟨none, some 0, [2, 0]⟩], some 0,
          some 1, 1, true, false⟩)) :=
  ⟨by decide, C10_sort_safe gtOf [0, 1] [3, 1, 2] (by decide)⟩

end Librender
